import Mathlib

/-!
Shallow embedding of the fluxprobe schema-driven protocol fuzzer
(`fluxprobe/schema.py`, `fluxprobe/generator.py`, `fluxprobe/mutator.py`).

Modelling conventions:
* Python `bytes`/`bytearray` values are `List Nat` whose elements are kept
  below 256 by construction (masking mirrors the source's `& 0xFF` etc.).
* Python strings are `List Nat` of character code points.
* The seedable random source (`random.Random`) is a deterministic stream of
  naturals: every primitive consumes values from the front of the list, so
  two identically-seeded sources are equal streams.  `rng.random() < 0.3`
  (the fixed 30% fuzz-substitution constant) is modelled as drawing one
  value and testing `h % 10 < 3`.
* Code that can raise (`ValueError`, `KeyError`) returns `Except String`;
  a `try/except OverflowError` in the source is translated to the
  conditional the handler realises.
* Python truthiness is modelled where the source relies on it
  (`field.length_of`, `field.length`, `field.choices`, `field.encoding`).
-/

/-- A byte string: list of naturals, each < 256 by construction. -/
abbrev ByteString := List Nat

/-- Deterministic random source: the stream of draws produced by a seed. -/
abbrev Rng := List Nat

/-- Pull one draw from the stream (an exhausted stream yields 0; all
concrete witnesses use streams long enough that this never matters). -/
def rngNext (r : Rng) : Nat × Rng :=
  match r with
  | [] => (0, [])
  | h :: t => (h, t)

/-- `rng.randint(lo, hi)` : uniform integer in `[lo, hi]`; raises when the
range is empty. -/
def randintE (r : Rng) (lo hi : Int) : Except String (Int × Rng) :=
  if hi < lo then .error "empty range for randrange" else
    let (h, r') := rngNext r
    .ok (lo + (h : Int) % (hi - lo + 1), r')

/-- `rng.randrange(n)` : uniform in `[0, n)`; raises when `n = 0`. -/
def randrangeE (r : Rng) (n : Nat) : Except String (Nat × Rng) :=
  if n = 0 then .error "empty range for randrange" else
    let (h, r') := rngNext r
    .ok (h % n, r')

/-- `rng.randrange(lo, hi)` : uniform in `[lo, hi)`; raises when empty. -/
def randrange2E (r : Rng) (lo hi : Nat) : Except String (Nat × Rng) :=
  if hi ≤ lo then .error "empty range for randrange" else
    let (h, r') := rngNext r
    .ok (lo + h % (hi - lo), r')

/-- `rng.choice(seq)` : uniform element of `seq`; raises on empty `seq`. -/
def chooseE (r : Rng) (xs : List α) : Except String (α × Rng) :=
  match xs with
  | [] => .error "cannot choose from an empty sequence"
  | x :: rest =>
    let (h, r') := rngNext r
    .ok ((x :: rest).getD (h % (x :: rest).length) x, r')

/-- `rng.random() < 0.3` : one draw, true for 3 in 10 outcomes. -/
def randBelow03 (r : Rng) : Bool × Rng :=
  let (h, r') := rngNext r
  (h % 10 < 3, r')

/-- `rng.randbytes(n)` : `n` fresh bytes. -/
def randbytes (r : Rng) : Nat → ByteString × Rng
  | 0 => ([], r)
  | n + 1 =>
    let (h, r') := rngNext r
    let (bs, r'') := randbytes r' n
    (h % 256 :: bs, r'')

/-- Big-endian encoding of `n` into exactly `w` bytes
(`int.to_bytes(w, "big")` after the caller has ensured `n < 256 ^ w`). -/
def toBytesBE : Nat → Nat → ByteString
  | 0, _ => []
  | w + 1, n => toBytesBE w (n / 256) ++ [n % 256]

/-- `int.from_bytes(bs, "big")`. -/
def fromBytesBE (bs : ByteString) : Nat :=
  bs.foldl (fun acc b => acc * 256 + b) 0

/-- Python slice `l[s:e]` (clamping, non-negative indices). -/
def pySlice (l : List α) (s e : Nat) : List α :=
  (l.take e).drop s

/-- Python slice assignment `l[s:e] = xs` (clamping, non-negative
indices; when `e < s` Python inserts at `s` without removing). -/
def pySetSlice (l : List α) (s e : Nat) (xs : List α) : List α :=
  l.take s ++ xs ++ l.drop (max s e)

/-- A resolved logical field value: Python `int`, `str` or `bytes`. -/
inductive Value where
  | VInt (n : Int)
  | VStr (s : List Nat)
  | VBytes (b : ByteString)
deriving DecidableEq, Repr

/-- `FieldSpec` dataclass from `schema.py`. -/
structure FieldSpec where
  name : String
  type : String
  length : Option Nat := none
  length_of : Option String := none
  min_value : Option Int := none
  max_value : Option Int := none
  min_length : Option Nat := none
  max_length : Option Nat := none
  choices : List Value := []
  default : Option Value := none
  encoding : String := "ascii"
  fuzz_values : List Value := []
deriving DecidableEq, Repr

/-- `MessageSpec` dataclass. -/
structure MessageSpec where
  fields : List FieldSpec
deriving DecidableEq, Repr

/-- `TransportSpec` dataclass (timeout modelled as a rational). -/
structure TransportSpec where
  type : String
  host : String
  port : Int
  timeout : Rat := 1
deriving DecidableEq, Repr

/-- `ProtocolSchema` dataclass. -/
structure ProtocolSchema where
  name : String
  transport : TransportSpec
  message : MessageSpec
deriving DecidableEq, Repr

/-- The truthy `length_of` reference (`if field.length_of:` — an empty
string is falsy and means "not a derived field"). -/
def lengthOfName (f : FieldSpec) : Option String :=
  match f.length_of with
  | some s => if s = "" then none else some s
  | none => none

/-- Whether `field.length_of` is truthy: a derived-length field. -/
def isDerived (f : FieldSpec) : Bool :=
  (lengthOfName f).isSome

/-- `(field.length or d)`: Python truthiness, `None` and `0` both fall
back to the default. -/
def lengthOr (f : FieldSpec) (d : Nat) : Nat :=
  match f.length with
  | some 0 => d
  | some n => n
  | none => d

/-- All field names in declaration order. -/
def fieldNames (fields : List FieldSpec) : List String :=
  fields.map (fun f => f.name)

/-! ## Schema validation (`schema.py`, `_parse_message` / `_parse_transport`) -/

/-- Error kinds raised by `_parse_message` (Python raises `ValueError`
with distinguishing messages). -/
inductive ParseErr where
  | emptyFields
  | missingRef (fieldName target : String)
  | circular (fieldName : String)
deriving DecidableEq, Repr

/-- Filtering by the stricter predicate "outside `a :: v`" yields at most
as many elements as filtering by "outside `v`". -/
theorem filter_sub_length_le (l v : List String) (a : String) :
    (l.filter (fun n => decide (n ∉ a :: v))).length
      ≤ (l.filter (fun n => decide (n ∉ v))).length := by
  induction l with
  | nil => simp
  | cons b t ih =>
    simp only [List.filter_cons, decide_eq_true_eq]
    by_cases hbv : b ∈ v
    · rw [if_neg (by simp [hbv]), if_neg (by simp [hbv])]
      exact ih
    · by_cases hba : b = a
      · rw [if_neg (by simp [hba]), if_pos hbv]
        simp only [List.length_cons]
        exact Nat.le_succ_of_le ih
      · rw [if_pos (by simp [List.mem_cons, hba, hbv]), if_pos hbv]
        simp only [List.length_cons]
        exact Nat.succ_le_succ ih

/-- Length of the sublist of `l` outside `v` strictly shrinks when a
member of `l` outside `v` is added to `v` (termination measure fact). -/
theorem filter_cons_length_lt (l : List String) (a : String) (v : List String)
    (ha : a ∈ l) (hv : a ∉ v) :
    (l.filter (fun n => decide (n ∉ a :: v))).length
      < (l.filter (fun n => decide (n ∉ v))).length := by
  induction l with
  | nil => cases ha
  | cons b t ih =>
    simp only [List.filter_cons, decide_eq_true_eq]
    by_cases hba : b = a
    · subst hba
      rw [if_neg (by simp), if_pos hv]
      simp only [List.length_cons]
      exact Nat.lt_succ_of_le (filter_sub_length_le t v b)
    · have ha' : a ∈ t := by
        rcases List.mem_cons.mp ha with h | h
        · exact absurd h.symm hba
        · exact h
      by_cases hbv : b ∈ v
      · rw [if_neg (by simp [hbv]), if_neg (by simp [hbv])]
        exact ih ha'
      · rw [if_pos (by simp [List.mem_cons, hba, hbv]), if_pos hbv]
        simp only [List.length_cons]
        exact Nat.succ_lt_succ (ih ha')

/-- `_has_cycle(field_name, visited, path)` from `_parse_message`:
depth-first search along `length_of` edges with an explicit recursion-path
set; returns the cycle flag and the updated `visited` set (the Python
code mutates `visited` in place and shares it across top-level calls). -/
def hasCycle (fields : List FieldSpec) (fieldName : String)
    (visited path : List String) : Bool × List String :=
  if fieldName ∈ path then (true, visited)
  else if fieldName ∈ visited then (false, visited)
  else
    match hfind : fields.find? (fun f => f.name == fieldName) with
    | some f =>
      match lengthOfName f with
      | some target => hasCycle fields target (fieldName :: visited) (fieldName :: path)
      | none => (false, fieldName :: visited)
    | none => (false, fieldName :: visited)
termination_by ((fieldNames fields).filter (fun n => decide (n ∉ visited))).length
decreasing_by
  apply filter_cons_length_lt
  · have hf := List.find?_some hfind
    have hmem := List.mem_of_find?_eq_some hfind
    have : f.name = fieldName := by simpa using hf
    exact this ▸ List.mem_map_of_mem (fun f => f.name) hmem
  · assumption

/-- The top-level loop of `_parse_message`'s cycle detection: for every
derived field not yet visited, run the DFS; return the name reported in
the raised error, if any. -/
def detectLoop (fields : List FieldSpec) : List FieldSpec → List String → Option String
  | [], _ => none
  | f :: rest, visited =>
    if isDerived f ∧ f.name ∉ visited then
      match hasCycle fields f.name visited [] with
      | (true, _) => some f.name
      | (false, visited') => detectLoop fields rest visited'
    else detectLoop fields rest visited

/-- First field whose truthy `length_of` names a nonexistent field
(the reference-validation loop of `_parse_message`). -/
def firstBadRef (fields : List FieldSpec) : Option (String × String) :=
  fields.findSome? fun f =>
    match lengthOfName f with
    | some t => if t ∈ fieldNames fields then none else some (f.name, t)
    | none => none

/-- `_parse_message`: empty-fields check, `length_of` reference check,
then cycle detection. -/
def parseMessage (fields : List FieldSpec) : Except ParseErr MessageSpec :=
  if fields.isEmpty then .error .emptyFields
  else
    match firstBadRef fields with
    | some (fname, tgt) => .error (.missingRef fname tgt)
    | none =>
      match detectLoop fields fields [] with
      | some n => .error (.circular n)
      | none => .ok ⟨fields⟩

/-- Raw transport table as consumed by `_parse_transport` (each key
optional, mirroring `raw.get`). -/
structure RawTransport where
  type : Option String := none
  host : Option String := none
  port : Option Int := none
  timeout : Option Rat := none
deriving DecidableEq, Repr

/-- `_parse_transport`: an absent (or `None`) port becomes 0; an explicit
port must lie in `1..=65535` or a `ValueError` is raised. -/
def parseTransport (raw : RawTransport) : Except String TransportSpec :=
  match raw.port with
  | none =>
    .ok { type := (raw.type.getD "tcp"), host := raw.host.getD "127.0.0.1",
          port := 0, timeout := raw.timeout.getD 1 }
  | some p =>
    if 0 < p ∧ p ≤ 65535 then
      .ok { type := (raw.type.getD "tcp"), host := raw.host.getD "127.0.0.1",
            port := p, timeout := raw.timeout.getD 1 }
    else .error "Invalid port number. Must be 1-65535"

/-! ## The `length_of` reference graph -/

/-- One step of the `length_of` graph: the truthy `length_of` of the
first field named `name` (matching both the DFS lookup and the
reference semantics). -/
def step (fields : List FieldSpec) (name : String) : Option String :=
  (fields.find? (fun f => f.name == name)).bind lengthOfName

/-- `k`-fold iteration of `step`. -/
def stepN (fields : List FieldSpec) : Nat → String → Option String
  | 0, n => some n
  | k + 1, n =>
    match step fields n with
    | some t => stepN fields k t
    | none => none

/-- `n` lies on a `length_of` cycle. -/
def onCycle (fields : List FieldSpec) (n : String) : Prop :=
  ∃ j, stepN fields (j + 1) n = some n

/-- `n` reaches a `length_of` cycle by following `step`. -/
def reachesCycle (fields : List FieldSpec) (n : String) : Prop :=
  ∃ k m, stepN fields k n = some m ∧ onCycle fields m

/-- The `length_of` graph of `fields` contains a cycle. -/
def hasLoopGraph (fields : List FieldSpec) : Prop :=
  ∃ n, onCycle fields n

/-- The path argument of the DFS is a chain of `step` edges ending at the
currently visited name (head of the list = immediate predecessor). -/
def pathChain (fields : List FieldSpec) : List String → String → Prop
  | [], _ => True
  | p :: ps, name => step fields p = some name ∧ pathChain fields ps p

theorem stepN_add (fields : List FieldSpec) (a : Nat) :
    ∀ b n x y, stepN fields a n = some x → stepN fields b x = some y →
      stepN fields (a + b) n = some y := by
  induction a with
  | zero =>
    intro b n x y h1 h2
    simp only [stepN] at h1
    cases h1
    simpa using h2
  | succ a ih =>
    intro b n x y h1 h2
    simp only [stepN] at h1
    rw [Nat.succ_add]
    simp only [stepN]
    cases hstep : step fields n with
    | none => rw [hstep] at h1; cases h1
    | some t =>
      rw [hstep] at h1
      exact ih b t x y h1 h2

theorem reach_step_defined (fields : List FieldSpec) (n : String)
    (h : reachesCycle fields n) : ∃ t, step fields n = some t := by
  obtain ⟨k, m, hk, j, hj⟩ := h
  cases k with
  | zero =>
    simp only [stepN] at hk
    cases hk
    simp only [stepN] at hj
    cases hstep : step fields n with
    | none => rw [hstep] at hj; cases hj
    | some t => exact ⟨t, rfl⟩
  | succ k =>
    simp only [stepN] at hk
    cases hstep : step fields n with
    | none => rw [hstep] at hk; cases hk
    | some t => exact ⟨t, rfl⟩

theorem reach_shift (fields : List FieldSpec) (n t : String)
    (h : reachesCycle fields n) (hstep : step fields n = some t) :
    reachesCycle fields t := by
  obtain ⟨k, m, hk, hcyc⟩ := h
  cases k with
  | zero =>
    simp only [stepN] at hk
    cases hk
    obtain ⟨j, hj⟩ := hcyc
    have hj' := hj
    simp only [stepN] at hj'
    rw [hstep] at hj'
    exact ⟨j, n, hj', j, hj⟩
  | succ k =>
    simp only [stepN] at hk
    rw [hstep] at hk
    exact ⟨k, m, hk, hcyc⟩

/-- Unfolding: detection when the name is on the active path. -/
theorem hasCycle_path_eq (fields : List FieldSpec) (fieldName : String)
    (visited path : List String) (hmem : fieldName ∈ path) :
    hasCycle fields fieldName visited path = (true, visited) := by
  rw [hasCycle, if_pos hmem]

/-- Unfolding: early return when the name was already fully visited. -/
theorem hasCycle_visited_eq (fields : List FieldSpec) (fieldName : String)
    (visited path : List String) (hpath : fieldName ∉ path)
    (hvis : fieldName ∈ visited) :
    hasCycle fields fieldName visited path = (false, visited) := by
  rw [hasCycle, if_neg hpath, if_pos hvis]

/-- Unfolding: recursive step along the `length_of` edge. -/
theorem hasCycle_step_eq (fields : List FieldSpec) (fieldName : String)
    (visited path : List String) (hpath : fieldName ∉ path)
    (hvis : fieldName ∉ visited) (f : FieldSpec)
    (hfind : fields.find? (fun f => f.name == fieldName) = some f)
    (target : String) (hlen : lengthOfName f = some target) :
    hasCycle fields fieldName visited path
      = hasCycle fields target (fieldName :: visited) (fieldName :: path) := by
  rw [hasCycle, if_neg hpath, if_neg hvis]
  split
  next f' hfind' =>
    rw [hfind] at hfind'
    cases hfind'
    split
    next target' hlen' =>
      rw [hlen] at hlen'
      cases hlen'
      rfl
    next hlen' =>
      rw [hlen] at hlen'
      cases hlen'
  next hfind' =>
    rw [hfind] at hfind'
    cases hfind'

/-- Unfolding: the field exists but is terminal (no truthy `length_of`). -/
theorem hasCycle_terminal_eq (fields : List FieldSpec) (fieldName : String)
    (visited path : List String) (hpath : fieldName ∉ path)
    (hvis : fieldName ∉ visited) (f : FieldSpec)
    (hfind : fields.find? (fun f => f.name == fieldName) = some f)
    (hlen : lengthOfName f = none) :
    hasCycle fields fieldName visited path = (false, fieldName :: visited) := by
  rw [hasCycle, if_neg hpath, if_neg hvis]
  split
  next f' hfind' =>
    rw [hfind] at hfind'
    cases hfind'
    split <;> simp_all
  next hfind' => rfl

/-- Unfolding: no field of that name exists. -/
theorem hasCycle_nofield_eq (fields : List FieldSpec) (fieldName : String)
    (visited path : List String) (hpath : fieldName ∉ path)
    (hvis : fieldName ∉ visited)
    (hfind : fields.find? (fun f => f.name == fieldName) = none) :
    hasCycle fields fieldName visited path = (false, fieldName :: visited) := by
  rw [hasCycle, if_neg hpath, if_neg hvis]
  split
  next f' hfind' =>
    rw [hfind] at hfind'
    cases hfind'
  next hfind' => rfl
/-- If the start reaches a cycle and every visited name off the current
path does not, the DFS reports a cycle (completeness). -/
theorem hasCycle_detects (fields : List FieldSpec) :
    ∀ fieldName visited path,
      reachesCycle fields fieldName →
      (∀ w ∈ visited, w ∉ path → ¬ reachesCycle fields w) →
      (hasCycle fields fieldName visited path).1 = true := by
  intro fieldName visited path
  induction fieldName, visited, path using hasCycle.induct fields with
  | case1 fieldName visited path hmem =>
    intro _ _
    rw [hasCycle_path_eq fields fieldName visited path hmem]
  | case2 fieldName visited path hpath hvis =>
    intro hreach hinv
    exact absurd hreach (hinv fieldName hvis hpath)
  | case3 fieldName visited path hpath hvis f hfind target hlen ih =>
    intro hreach hinv
    rw [hasCycle_step_eq fields fieldName visited path hpath hvis f hfind target hlen]
    have hstep : step fields fieldName = some target := by
      simp [step, hfind, hlen]
    apply ih (reach_shift fields fieldName target hreach hstep)
    intro w hw hwp
    rcases List.mem_cons.mp hw with h | h
    · exact absurd (h ▸ List.mem_cons_self fieldName path) hwp
    · exact hinv w h (fun hmem => hwp (List.mem_cons_of_mem _ hmem))
  | case4 fieldName visited path hpath hvis f hfind hlen =>
    intro hreach hinv
    obtain ⟨t, ht⟩ := reach_step_defined fields fieldName hreach
    simp [step, hfind, hlen] at ht
  | case5 fieldName visited path hpath hvis hfind =>
    intro hreach hinv
    obtain ⟨t, ht⟩ := reach_step_defined fields fieldName hreach
    simp [step, hfind] at ht

/-- A false-returning DFS call keeps the invariant that no visited name
off the path reaches a cycle. -/
theorem hasCycle_inv (fields : List FieldSpec) :
    ∀ fieldName visited path,
      (hasCycle fields fieldName visited path).1 = false →
      (∀ w ∈ visited, w ∉ path → ¬ reachesCycle fields w) →
      ∀ w ∈ (hasCycle fields fieldName visited path).2, w ∉ path →
        ¬ reachesCycle fields w := by
  intro fieldName visited path
  induction fieldName, visited, path using hasCycle.induct fields with
  | case1 fieldName visited path hmem =>
    intro hfalse
    rw [hasCycle_path_eq fields fieldName visited path hmem] at hfalse
    cases hfalse
  | case2 fieldName visited path hpath hvis =>
    intro _ hinv
    rw [hasCycle_visited_eq fields fieldName visited path hpath hvis]
    exact hinv
  | case3 fieldName visited path hpath hvis f hfind target hlen ih =>
    intro hfalse hinv
    rw [hasCycle_step_eq fields fieldName visited path hpath hvis f hfind target hlen]
      at hfalse ⊢
    have hnr : ¬ reachesCycle fields fieldName := by
      intro hreach
      have hdet := hasCycle_detects fields fieldName visited path hreach hinv
      rw [hasCycle_step_eq fields fieldName visited path hpath hvis f hfind target hlen]
        at hdet
      rw [hdet] at hfalse
      cases hfalse
    have hinv' : ∀ w ∈ fieldName :: visited, w ∉ fieldName :: path →
        ¬ reachesCycle fields w := by
      intro w hw hwp
      rcases List.mem_cons.mp hw with h | h
      · exact absurd (h ▸ List.mem_cons_self fieldName path) hwp
      · exact hinv w h (fun hmem => hwp (List.mem_cons_of_mem _ hmem))
    intro w hw hwp
    by_cases hwf : w = fieldName
    · exact hwf ▸ hnr
    · refine ih hfalse hinv' w hw ?_
      intro hmem
      rcases List.mem_cons.mp hmem with h | h
      · exact hwf h
      · exact hwp h
  | case4 fieldName visited path hpath hvis f hfind hlen =>
    intro _ hinv
    rw [hasCycle_terminal_eq fields fieldName visited path hpath hvis f hfind hlen]
    intro w hw hwp
    rcases List.mem_cons.mp hw with h | h
    · subst h
      intro hreach
      obtain ⟨t, ht⟩ := reach_step_defined fields w hreach
      simp [step, hfind, hlen] at ht
    · exact hinv w h hwp
  | case5 fieldName visited path hpath hvis hfind =>
    intro _ hinv
    rw [hasCycle_nofield_eq fields fieldName visited path hpath hvis hfind]
    intro w hw hwp
    rcases List.mem_cons.mp hw with h | h
    · subst h
      intro hreach
      obtain ⟨t, ht⟩ := reach_step_defined fields w hreach
      simp [step, hfind] at ht
    · exact hinv w h hwp

/-- Every name on a valid DFS path steps to the current name in one or
more `length_of` hops. -/
theorem pathChain_reaches (fields : List FieldSpec) :
    ∀ path name, pathChain fields path name →
      ∀ w ∈ path, ∃ d, stepN fields (d + 1) w = some name := by
  intro path
  induction path with
  | nil =>
    intro name _ w hw
    cases hw
  | cons p ps ih =>
    intro name hchain w hw
    obtain ⟨hstep, hchain'⟩ := hchain
    rcases List.mem_cons.mp hw with h | h
    · subst h
      refine ⟨0, ?_⟩
      simp only [stepN, hstep]
    · obtain ⟨d, hd⟩ := ih p hchain' w h
      refine ⟨d + 1, ?_⟩
      have hone : stepN fields 1 p = some name := by
        simp only [stepN, hstep]
      have := stepN_add fields (d + 1) 1 w p name hd hone
      simpa using this

/-- A true-returning DFS call certifies an actual `length_of` cycle. -/
theorem hasCycle_sound (fields : List FieldSpec) :
    ∀ fieldName visited path,
      (hasCycle fields fieldName visited path).1 = true →
      pathChain fields path fieldName →
      hasLoopGraph fields := by
  intro fieldName visited path
  induction fieldName, visited, path using hasCycle.induct fields with
  | case1 fieldName visited path hmem =>
    intro _ hchain
    obtain ⟨d, hd⟩ := pathChain_reaches fields path fieldName hchain fieldName hmem
    exact ⟨fieldName, d, hd⟩
  | case2 fieldName visited path hpath hvis =>
    intro htrue _
    rw [hasCycle_visited_eq fields fieldName visited path hpath hvis] at htrue
    cases htrue
  | case3 fieldName visited path hpath hvis f hfind target hlen ih =>
    intro htrue hchain
    rw [hasCycle_step_eq fields fieldName visited path hpath hvis f hfind target hlen]
      at htrue
    refine ih htrue ⟨?_, hchain⟩
    simp [step, hfind, hlen]
  | case4 fieldName visited path hpath hvis f hfind hlen =>
    intro htrue _
    rw [hasCycle_terminal_eq fields fieldName visited path hpath hvis f hfind hlen]
      at htrue
    cases htrue
  | case5 fieldName visited path hpath hvis hfind =>
    intro htrue _
    rw [hasCycle_nofield_eq fields fieldName visited path hpath hvis hfind] at htrue
    cases htrue

/-- If some field of `rest` sits on a `length_of` cycle and nothing
visited so far reaches a cycle, the detection loop reports a name. -/
theorem detectLoop_some (fields : List FieldSpec) :
    ∀ rest visited,
      (∃ f ∈ rest, onCycle fields f.name ∧ isDerived f = true) →
      (∀ w ∈ visited, ¬ reachesCycle fields w) →
      ∃ n, detectLoop fields rest visited = some n := by
  intro rest
  induction rest with
  | nil =>
    intro visited hwit _
    obtain ⟨f, hf, _⟩ := hwit
    cases hf
  | cons g rest ih =>
    intro visited hwit hinv
    obtain ⟨f, hf, hfcyc, hfder⟩ := hwit
    simp only [detectLoop]
    by_cases hcond : isDerived g = true ∧ g.name ∉ visited
    · rw [if_pos (by exact_mod_cast hcond)]
      cases hres : hasCycle fields g.name visited [] with
      | mk flag visited' =>
        cases flag with
        | true => exact ⟨g.name, rfl⟩
        | false =>
          have hinv' : ∀ w ∈ visited', ¬ reachesCycle fields w := by
            intro w hw
            have := hasCycle_inv fields g.name visited []
              (by rw [hres]) (fun w hw _ => hinv w hw) w (by rw [hres]; exact hw)
            exact this (by simp)
          rcases List.mem_cons.mp hf with h | h
          · subst h
            exfalso
            have hreach : reachesCycle fields f.name := ⟨0, f.name, rfl, hfcyc⟩
            have hdet := hasCycle_detects fields f.name visited []
              hreach (fun w hw _ => hinv w hw)
            rw [hres] at hdet
            cases hdet
          · exact ih visited' ⟨f, h, hfcyc, hfder⟩ hinv'
    · rw [if_neg (by exact_mod_cast hcond)]
      rcases List.mem_cons.mp hf with h | h
      · subst h
        exfalso
        rcases not_and_or.mp hcond with h' | h'
        · exact h' hfder
        · have hmem : f.name ∈ visited := not_not.mp h'
          exact hinv f.name hmem ⟨0, f.name, rfl, hfcyc⟩
      · exact ih visited ⟨f, h, hfcyc, hfder⟩ hinv

/-- A reported name implies an actual cycle in the `length_of` graph. -/
theorem detectLoop_sound (fields : List FieldSpec) :
    ∀ rest visited n, detectLoop fields rest visited = some n →
      hasLoopGraph fields := by
  intro rest
  induction rest with
  | nil =>
    intro visited n h
    simp only [detectLoop] at h
    cases h
  | cons g rest ih =>
    intro visited n h
    simp only [detectLoop] at h
    by_cases hcond : isDerived g = true ∧ g.name ∉ visited
    · rw [if_pos (by exact_mod_cast hcond)] at h
      cases hres : hasCycle fields g.name visited [] with
      | mk flag visited' =>
        rw [hres] at h
        cases flag with
        | true =>
          exact hasCycle_sound fields g.name visited [] (by rw [hres]) trivial
        | false => exact ih visited' n h
    · rw [if_neg (by exact_mod_cast hcond)] at h
      exact ih visited n h

/-- A cycle always passes through an existing, derived field. -/
theorem cycle_gives_field (fields : List FieldSpec) (h : hasLoopGraph fields) :
    ∃ f ∈ fields, onCycle fields f.name ∧ isDerived f = true := by
  obtain ⟨n, j, hj⟩ := h
  have hstep : ∃ t, step fields n = some t := by
    simp only [stepN] at hj
    cases hstep : step fields n with
    | none => rw [hstep] at hj; cases hj
    | some t => exact ⟨t, rfl⟩
  obtain ⟨t, ht⟩ := hstep
  simp only [step, Option.bind_eq_some] at ht
  obtain ⟨f, hfind, hlen⟩ := ht
  have hname : f.name = n := by
    have := List.find?_some hfind
    simpa using this
  refine ⟨f, List.mem_of_find?_eq_some hfind, ?_, ?_⟩
  · rw [hname]; exact ⟨j, hj⟩
  · simp [isDerived, hlen]

/-- When every truthy `length_of` names an existing field, the
reference-validation loop finds nothing to reject. -/
theorem firstBadRef_eq_none (fields : List FieldSpec)
    (h : ∀ f ∈ fields, ∀ t, lengthOfName f = some t → t ∈ fieldNames fields) :
    firstBadRef fields = none := by
  unfold firstBadRef
  have aux : ∀ l : List FieldSpec,
      (∀ f ∈ l, ∀ t, lengthOfName f = some t → t ∈ fieldNames fields) →
      (l.findSome? fun f =>
        match lengthOfName f with
        | some t => if t ∈ fieldNames fields then none else some (f.name, t)
        | none => none) = none := by
    intro l
    induction l with
    | nil => intro _; rfl
    | cons g rest ih =>
      intro hl
      rw [List.findSome?_cons]
      cases hlen : lengthOfName g with
      | none =>
        exact ih (fun f hf => hl f (List.mem_cons_of_mem _ hf))
      | some t =>
        have hmem : t ∈ fieldNames fields := hl g (List.mem_cons_self _ _) t hlen
        simp only [hmem, if_true]
        exact ih (fun f hf => hl f (List.mem_cons_of_mem _ hf))
  exact aux fields h

/-- C2 (amended): schema construction fails for every message whose
`length_of` graph contains a cycle; the error is the cycle-identifying
one whenever every `length_of` target exists; and construction succeeds
for every acyclic message with valid references (in particular an
acyclic chain A→B with B terminal). -/
theorem parseMessage_cycle_rejection :
    (∀ fields : List FieldSpec, hasLoopGraph fields →
      ∃ e, parseMessage fields = .error e)
    ∧ (∀ fields : List FieldSpec, hasLoopGraph fields →
      (∀ f ∈ fields, ∀ t, lengthOfName f = some t → t ∈ fieldNames fields) →
      ∃ n, parseMessage fields = .error (.circular n))
    ∧ (∀ fields : List FieldSpec, fields ≠ [] →
      (∀ f ∈ fields, ∀ t, lengthOfName f = some t → t ∈ fieldNames fields) →
      ¬ hasLoopGraph fields → parseMessage fields = .ok ⟨fields⟩) := by
  have hdetect : ∀ fields : List FieldSpec, hasLoopGraph fields →
      ∃ n, detectLoop fields fields [] = some n := by
    intro fields hloop
    obtain ⟨f, hfmem, hfcyc, hfder⟩ := cycle_gives_field fields hloop
    exact detectLoop_some fields fields [] ⟨f, hfmem, hfcyc, hfder⟩
      (by intro w hw; cases hw)
  have hnonempty : ∀ fields : List FieldSpec, hasLoopGraph fields →
      fields.isEmpty = false := by
    intro fields hloop
    obtain ⟨f, hfmem, _, _⟩ := cycle_gives_field fields hloop
    cases fields with
    | nil => cases hfmem
    | cons a l => rfl
  refine ⟨?_, ?_, ?_⟩
  · intro fields hloop
    unfold parseMessage
    rw [hnonempty fields hloop]
    simp only [Bool.false_eq_true, if_false]
    cases hbad : firstBadRef fields with
    | some p => exact ⟨.missingRef p.1 p.2, rfl⟩
    | none =>
      obtain ⟨n, hn⟩ := hdetect fields hloop
      rw [hn]
      exact ⟨.circular n, rfl⟩
  · intro fields hloop hrefs
    unfold parseMessage
    rw [hnonempty fields hloop]
    simp only [Bool.false_eq_true, if_false]
    rw [firstBadRef_eq_none fields hrefs]
    obtain ⟨n, hn⟩ := hdetect fields hloop
    rw [hn]
    exact ⟨n, rfl⟩
  · intro fields hne hrefs hnoloop
    unfold parseMessage
    rw [List.isEmpty_eq_false_iff_exists_mem.mpr
      (by cases fields with
        | nil => exact absurd rfl hne
        | cons a l => exact ⟨a, List.mem_cons_self a l⟩)]
    simp only [Bool.false_eq_true, if_false]
    rw [firstBadRef_eq_none fields hrefs]
    cases hdl : detectLoop fields fields [] with
    | some n => exact absurd (detectLoop_sound fields fields [] n hdl) hnoloop
    | none => rfl

/-- Concrete field: `{"name": "A", "type": "u8", "length_of": "A"}`. -/
def fieldSelfLoop : FieldSpec := { name := "A", type := "u8", length_of := some "A" }

/-- Concrete field: `{"name": "B", "type": "u8", "length_of": "nope"}`. -/
def fieldBadRef : FieldSpec := { name := "B", type := "u8", length_of := some "nope" }

/-- A message containing a self-loop plus a dangling reference. -/
def fieldsMixed : List FieldSpec := [fieldSelfLoop, fieldBadRef]

/-- A message that is just the self-loop. -/
def fieldsSelf : List FieldSpec := [fieldSelfLoop]

/-- Concrete field: `{"name": "A", "type": "u8", "length_of": "B"}`. -/
def fieldChainA : FieldSpec := { name := "A", type := "u8", length_of := some "B" }

/-- Concrete field: `{"name": "B", "type": "u8"}`. -/
def fieldChainB : FieldSpec := { name := "B", type := "u8" }

/-- The acyclic chain A→B with B terminal. -/
def fieldsChain : List FieldSpec := [fieldChainA, fieldChainB]

/-- C2 counterexample: this message's `length_of` graph contains a cycle
(A→A), yet construction fails with the missing-reference error for the
unrelated dangling field B, not with a cycle-identifying error. -/
theorem parseMessage_cycle_error_counterexample :
    hasLoopGraph fieldsMixed
    ∧ parseMessage fieldsMixed = .error (.missingRef "B" "nope")
    ∧ ∀ n, parseMessage fieldsMixed ≠ .error (.circular n) := by
  have h : parseMessage fieldsMixed = .error (.missingRef "B" "nope") := rfl
  refine ⟨⟨"A", 0, by decide⟩, h, ?_⟩
  intro n hn
  rw [h] at hn
  simp at hn

/-- C2 witness: the amended theorem applied to the concrete one-node
cycle (rejected with a cycle-identifying error) and to the concrete
acyclic chain A→B (accepted). -/
theorem parseMessage_cycle_rejection_witness :
    (∃ n, parseMessage fieldsSelf = .error (.circular n))
    ∧ parseMessage fieldsChain = .ok ⟨fieldsChain⟩ := by
  have hrefs1 : ∀ f ∈ fieldsSelf, ∀ t, lengthOfName f = some t →
      t ∈ fieldNames fieldsSelf := by
    intro f hf t ht
    simp only [fieldsSelf, List.mem_singleton] at hf
    subst hf
    simp only [lengthOfName, fieldSelfLoop] at ht
    simp only [if_neg (by decide : ¬("A" = ""))] at ht
    cases ht
    decide
  have hrefs2 : ∀ f ∈ fieldsChain, ∀ t, lengthOfName f = some t →
      t ∈ fieldNames fieldsChain := by
    intro f hf t ht
    simp only [fieldsChain, List.mem_cons, List.not_mem_nil, or_false] at hf
    rcases hf with hf | hf
    · subst hf
      simp only [lengthOfName, fieldChainA] at ht
      simp only [if_neg (by decide : ¬("B" = ""))] at ht
      cases ht
      decide
    · subst hf
      simp only [lengthOfName, fieldChainB] at ht
      cases ht
  have hnoloop : ¬ hasLoopGraph fieldsChain := by
    intro hl
    obtain ⟨n, j, hj⟩ := hl
    have hstepA : step fieldsChain "A" = some "B" := by decide
    have hstepB : step fieldsChain "B" = none := by decide
    by_cases hn : n = "A"
    · subst hn
      have hrest : stepN fieldsChain j "B" = some "A" := by
        simpa only [stepN, hstepA] using hj
      cases j with
      | zero =>
        simp only [stepN] at hrest
        exact absurd hrest (by decide)
      | succ j' =>
        simp only [stepN, hstepB] at hrest
        cases hrest
    · by_cases hn' : n = "B"
      · subst hn'
        simp only [stepN, hstepB] at hj
        cases hj
      · have h1 : fieldChainA.name ≠ n := fun h => hn h.symm
        have h2 : fieldChainB.name ≠ n := fun h => hn' h.symm
        have hstepO : step fieldsChain n = none := by
          simp only [step, fieldsChain, List.find?]
          rw [show (fieldChainA.name == n) = false from beq_eq_false_iff_ne.mpr h1]
          rw [show (fieldChainB.name == n) = false from beq_eq_false_iff_ne.mpr h2]
          rfl
        simp only [stepN, hstepO] at hj
        cases hj
  refine ⟨parseMessage_cycle_rejection.2.1 fieldsSelf ⟨"A", 0, by decide⟩ hrefs1,
    parseMessage_cycle_rejection.2.2 fieldsChain (by decide) hrefs2 hnoloop⟩

/-! ## Message generation (`generator.py`) -/

/-- The generator's output (`GeneratedMessage` dataclass): serialized
bytes, the resolved logical values, and the byte-offset span of every
field. -/
structure GeneratedMessage where
  data : ByteString
  values : List (String × Value)
  field_spans : List (String × (Nat × Nat))
deriving DecidableEq, Repr

/-- Dict assignment `m[k] = v`: replace the existing binding or append. -/
def setVal (m : List (String × α)) (k : String) (v : α) : List (String × α) :=
  match m with
  | [] => [(k, v)]
  | (k', v') :: rest => if k' = k then (k, v) :: rest else (k', v') :: setVal rest k v

/-- Dict lookup `m.get(k)`. -/
def lookupVal (m : List (String × α)) (k : String) : Option α :=
  match m with
  | [] => none
  | (k', v') :: rest => if k' = k then some v' else lookupVal rest k

/-- `str.encode(encoding, errors="ignore")`, modelled for the codecs the
source selects ("ascii" by default, "latin-1" for bytes fields):
characters outside the codec's range are dropped. -/
def encodeStr (enc : String) (s : List Nat) : ByteString :=
  if enc = "latin-1" then s.filter (fun c => c < 256)
  else s.filter (fun c => c < 128)

/-- `_ensure_bytes(value, field)`: bytes pass through, strings are
encoded with the field's (truthy) encoding, integers are masked to the
field's width and packed big-endian; anything else is a
`ValueError`. -/
def ensure_bytes (value : Value) (f : FieldSpec) : Except String ByteString :=
  match value with
  | .VBytes b => .ok b
  | .VStr s =>
    let enc := if f.encoding = "" then (if f.type = "bytes" then "latin-1" else "ascii")
      else f.encoding
    .ok (encodeStr enc s)
  | .VInt n =>
    if f.type = "u8" ∨ (f.type = "enum" ∧ lengthOr f 1 = 1) then
      .ok [(n % 256).toNat]
    else if f.type = "u16" ∨ (f.type = "enum" ∧ lengthOr f 2 = 2) then
      .ok (toBytesBE 2 (n % 65536).toNat)
    else if f.type = "u32" ∨ (f.type = "enum" ∧ lengthOr f 4 = 4) then
      .ok (toBytesBE 4 (n % 4294967296).toNat)
    else .error "Cannot convert value"

/-- `_int_bounds(field)`: default integer range from the type's width,
overridden by explicit `min_value` / `max_value`. -/
def int_bounds (f : FieldSpec) : Int × Int :=
  let defaultMax : Int :=
    if f.type = "u8" ∨ (f.type = "enum" ∧ lengthOr f 1 = 1) then 255
    else if f.type = "u16" ∨ (f.type = "enum" ∧ lengthOr f 2 = 2) then 65535
    else 4294967295
  (f.min_value.getD 0, f.max_value.getD defaultMax)

/-- Draw `size` printable ASCII characters (`chr(rng.randint(32, 126))`). -/
def randPrintable (r : Rng) : Nat → List Nat × Rng
  | 0 => ([], r)
  | n + 1 =>
    let (h, r') := rngNext r
    let (cs, r'') := randPrintable r' n
    ((32 + h % 95) :: cs, r'')

/-- `_generate_field_value(field, rng)`: uniform choice from truthy
`choices`; else a bounded random integer for the integer types; else
(for bytes/string) an occasional `fuzz_values` literal or a random
payload of random length; any other type is a `ValueError`. -/
def generate_field_value (f : FieldSpec) (r : Rng) : Except String (Value × Rng) :=
  if f.choices ≠ [] then
    chooseE r f.choices
  else if f.type = "u8" ∨ f.type = "u16" ∨ f.type = "u32" ∨ f.type = "enum" then
    match randintE r (int_bounds f).1 (int_bounds f).2 with
    | .error e => .error e
    | .ok (v, r') => .ok (.VInt v, r')
  else
    let minLen := f.min_length.getD 0
    let maxLen := f.max_length.getD 32
    let lens : Nat × Nat :=
      match f.length with
      | some l => (l, l)
      | none => (minLen, maxLen)
    if f.type = "bytes" ∨ f.type = "string" then
      let fuzzBranch : Bool × Rng :=
        if f.fuzz_values ≠ [] then randBelow03 r else (false, r)
      if fuzzBranch.1 then
        chooseE fuzzBranch.2 f.fuzz_values
      else
        match randintE fuzzBranch.2 (lens.1 : Int) (lens.2 : Int) with
        | .error e => .error e
        | .ok (size, r') =>
          if f.type = "string" then
            let (cs, r'') := randPrintable r' size.toNat
            .ok (.VStr cs, r'')
          else
            let (bs, r'') := randbytes r' size.toNat
            .ok (.VBytes bs, r'')
    else .error "Unsupported field type"

/-- Pass 1 of `generate_valid_message`: resolve every non-derived field
(defaults bypass randomness). -/
def pass1 : List FieldSpec → List (String × Value) → Rng →
    Except String (List (String × Value) × Rng)
  | [], vs, r => .ok (vs, r)
  | f :: rest, vs, r =>
    if isDerived f then pass1 rest vs r
    else
      match f.default with
      | some d => pass1 rest (setVal vs f.name d) r
      | none =>
        match generate_field_value f r with
        | .error e => .error e
        | .ok (v, r') => pass1 rest (setVal vs f.name v) r'

/-- `field_map.get(name)`: Python dict comprehensions keep the last
binding for a duplicated key. -/
def fieldMapGet (fields : List FieldSpec) (name : String) : Option FieldSpec :=
  fields.reverse.find? (fun f => f.name == name)

/-- Pass 2 of `generate_valid_message`: fill each derived field with the
serialized byte count of its target's value (missing target field → 0;
unresolved target value → the empty byte string). -/
def pass2 (allFields : List FieldSpec) : List FieldSpec → List (String × Value) →
    Except String (List (String × Value))
  | [], vs => .ok vs
  | f :: rest, vs =>
    match lengthOfName f with
    | none => pass2 allFields rest vs
    | some tgt =>
      match fieldMapGet allFields tgt with
      | none => pass2 allFields rest (setVal vs f.name (.VInt 0))
      | some tf =>
        let tv := (lookupVal vs tgt).getD (.VBytes [])
        match ensure_bytes tv tf with
        | .error e => .error e
        | .ok tb => pass2 allFields rest (setVal vs f.name (.VInt tb.length))

/-- Pass 3 of `generate_valid_message`: serialize in declaration order,
recording each field's `(start, end)` span. -/
def pass3 : List FieldSpec → List (String × Value) → ByteString →
    List (String × (Nat × Nat)) →
    Except String (ByteString × List (String × (Nat × Nat)))
  | [], _, buf, spans => .ok (buf, spans)
  | f :: rest, vs, buf, spans =>
    match lookupVal vs f.name with
    | none => .error "KeyError"
    | some v =>
      match ensure_bytes v f with
      | .error e => .error e
      | .ok bs =>
        pass3 rest vs (buf ++ bs)
          (setVal spans f.name (buf.length, buf.length + bs.length))

/-- `generate_valid_message(schema, rng)`: the three passes; also
returns the advanced random source (the Python code mutates the caller's
`rng` in place). -/
def generate_valid_message (schema : ProtocolSchema) (r : Rng) :
    Except String (GeneratedMessage × Rng) :=
  match pass1 schema.message.fields [] r with
  | .error e => .error e
  | .ok (vs, r') =>
    match pass2 schema.message.fields schema.message.fields vs with
    | .error e => .error e
    | .ok vs' =>
      match pass3 schema.message.fields vs' [] [] with
      | .error e => .error e
      | .ok (buf, spans) =>
        .ok (⟨buf, vs', spans⟩, r')

/-! ## Mutation (`mutator.py`) -/

/-- The integer choices of a field (`[c for c in choices if isinstance(c, int)]`). -/
def intChoicesOf (f : FieldSpec) : List Int :=
  f.choices.filterMap (fun v =>
    match v with
    | .VInt n => some n
    | _ => none)

/-- `max(int_choices)` for a nonempty list. -/
def maxChoice : List Int → Int
  | [] => 0
  | c :: cs => (c :: cs).foldl max c

/-- `_width_bytes(field)`: fixed widths for the integer types; enums use
the truthy explicit `length`, else the smallest width fitting the
integer choices, else 1; unknown types default to 4. -/
def width_bytes (f : FieldSpec) : Nat :=
  if f.type = "u8" then 1
  else if f.type = "u16" then 2
  else if f.type = "u32" then 4
  else if f.type = "enum" then
    match f.length with
    | some (n + 1) => n + 1
    | _ =>
      match intChoicesOf f with
      | [] => 1
      | c :: cs =>
        if maxChoice (c :: cs) ≤ 255 then 1
        else if maxChoice (c :: cs) ≤ 65535 then 2
        else 4
  else 4

/-- The `Mutator` object: the schema plus the precomputed lists of
derived-length fields and enum fields. -/
structure Mutator where
  schema : ProtocolSchema
  length_fields : List FieldSpec
  enum_fields : List FieldSpec
deriving DecidableEq, Repr

/-- `Mutator(schema)`. -/
def mkMutator (schema : ProtocolSchema) : Mutator :=
  ⟨schema,
   schema.message.fields.filter isDerived,
   schema.message.fields.filter (fun f => f.type == "enum")⟩

/-- `Mutator._bit_flip`: XOR one random bit of one random byte; no-op on
an empty buffer. -/
def bit_flip (buf : ByteString) (r : Rng) : Except String (ByteString × Rng) :=
  if buf = [] then .ok (buf, r)
  else
    match randrangeE r buf.length with
    | .error e => .error e
    | .ok (idx, r1) =>
      match randrangeE r1 8 with
      | .error e => .error e
      | .ok (b, r2) =>
        .ok (buf.set idx (Nat.xor (buf.getD idx 0) (2 ^ b)), r2)

/-- `Mutator._random_byte`: overwrite one random byte; no-op on an empty
buffer. -/
def random_byte (buf : ByteString) (r : Rng) : Except String (ByteString × Rng) :=
  if buf = [] then .ok (buf, r)
  else
    match randrangeE r buf.length with
    | .error e => .error e
    | .ok (idx, r1) =>
      match randrangeE r1 256 with
      | .error e => .error e
      | .ok (v, r2) => .ok (buf.set idx v, r2)

/-- `Mutator._truncate`: cut at a random point in `[1, len)`; no-op when
the buffer has at most one byte. -/
def truncate (buf : ByteString) (r : Rng) : Except String (ByteString × Rng) :=
  if buf.length ≤ 1 then .ok (buf, r)
  else
    match randrange2E r 1 buf.length with
    | .error e => .error e
    | .ok (newLen, r1) => .ok (buf.take newLen, r1)

/-- `Mutator._extend`: append 1–8 random bytes. -/
def extend (buf : ByteString) (r : Rng) : Except String (ByteString × Rng) :=
  match randintE r 1 8 with
  | .error e => .error e
  | .ok (n, r1) =>
    let (bs, r2) := randbytes r1 n.toNat
    .ok (buf ++ bs, r2)

/-- `Mutator._corrupt_length`: pick a derived-length field, offset its
current big-endian value by ±1/±2 (or a doubling probe when small),
clamp negatives to 0, and write it back; an `OverflowError` from
`to_bytes` is caught and zero bytes are written instead.  No-op when the
schema has no derived fields, the span map is empty, or the chosen
field's span is missing. -/
def corrupt_length (m : Mutator) (buf : ByteString) (msg : GeneratedMessage)
    (r : Rng) : Except String (ByteString × Rng) :=
  if m.length_fields = [] ∨ msg.field_spans = [] then .ok (buf, r)
  else
    match chooseE r m.length_fields with
    | .error e => .error e
    | .ok (f, r1) =>
      match lookupVal msg.field_spans f.name with
      | none => .ok (buf, r1)
      | some (s, e) =>
        let width := width_bytes f
        let current := fromBytesBE (pySlice buf s e)
        let maxValue := 2 ^ (8 * width) - 1
        let offsets : List Int :=
          [-2, -1, 1, 2] ++ (if current < maxValue / 2 then [2 * (current : Int) + 1] else [])
        match chooseE r1 offsets with
        | .error e' => .error e'
        | .ok (off, r2) =>
          let corrupt : Int := max 0 ((current : Int) + off)
          let written : ByteString :=
            if corrupt < (2 : Int) ^ (8 * width) then toBytesBE width corrupt.toNat
            else toBytesBE width 0
          .ok (pySetSlice buf s e written, r2)

/-- `Mutator._invalid_enum`: pick an enum field; with integer choices,
write a value 1–10 above the declared maximum (saturating to the width's
maximum on `OverflowError`); with no integer choices, overwrite the span
with random bytes of the inferred width.  No-op when the schema has no
enum fields, the span map is empty, or the chosen field's span is
missing. -/
def invalid_enum (m : Mutator) (buf : ByteString) (msg : GeneratedMessage)
    (r : Rng) : Except String (ByteString × Rng) :=
  if m.enum_fields = [] ∨ msg.field_spans = [] then .ok (buf, r)
  else
    match chooseE r m.enum_fields with
    | .error e => .error e
    | .ok (f, r1) =>
      match lookupVal msg.field_spans f.name with
      | none => .ok (buf, r1)
      | some (s, e) =>
        let width := width_bytes f
        match intChoicesOf f with
        | [] =>
          let (bs, r2) := randbytes r1 width
          .ok (pySetSlice buf s e bs, r2)
        | c :: cs =>
          match randintE r1 1 10 with
          | .error e' => .error e'
          | .ok (d, r2) =>
            let invalid : Int := maxChoice (c :: cs) + d
            let written : ByteString :=
              if 0 ≤ invalid ∧ invalid < (2 : Int) ^ (8 * width) then
                toBytesBE width invalid.toNat
              else toBytesBE width (2 ^ (8 * width) - 1)
            .ok (pySetSlice buf s e written, r2)

/-- One operator application inside `Mutator.mutate`: `rng.choice` over
the six bound methods, then the chosen operator. -/
def applyOp (m : Mutator) (msg : GeneratedMessage) (buf : ByteString)
    (r : Rng) : Except String (ByteString × Rng) :=
  let (h, r1) := rngNext r
  match h % 6 with
  | 0 => bit_flip buf r1
  | 1 => random_byte buf r1
  | 2 => truncate buf r1
  | 3 => extend buf r1
  | 4 => corrupt_length m buf msg r1
  | _ => invalid_enum m buf msg r1

/-- The loop body of `Mutator.mutate`: apply `k` randomly drawn
operators in sequence to the evolving buffer. -/
def mutateSteps (m : Mutator) (msg : GeneratedMessage) :
    Nat → ByteString → Rng → Except String (ByteString × Rng)
  | 0, buf, r => .ok (buf, r)
  | k + 1, buf, r =>
    match applyOp m msg buf r with
    | .error e => .error e
    | .ok (buf', r') => mutateSteps m msg k buf' r'

/-- `Mutator.mutate(msg, rng, operations)`: copy the serialized buffer
and apply `max(1, operations)` randomly chosen operators. -/
def mutate (m : Mutator) (msg : GeneratedMessage) (r : Rng)
    (operations : Nat) : Except String ByteString :=
  match mutateSteps m msg (max 1 operations) msg.data r with
  | .error e => .error e
  | .ok (buf, _) => .ok buf

/-! ## Map and pass lemmas -/

theorem lookup_set_self (m : List (String × α)) (k : String) (v : α) :
    lookupVal (setVal m k v) k = some v := by
  induction m with
  | nil => simp [setVal, lookupVal]
  | cons p rest ih =>
    by_cases h : p.1 = k
    · simp [setVal, lookupVal, h]
    · simp only [setVal, lookupVal]
      rw [if_neg h]
      simp only [lookupVal]
      rw [if_neg h]
      exact ih

theorem lookup_set_ne (m : List (String × α)) (k k' : String) (v : α)
    (h : k' ≠ k) : lookupVal (setVal m k v) k' = lookupVal m k' := by
  induction m with
  | nil =>
    simp only [setVal, lookupVal]
    rw [if_neg (fun hh => h hh.symm)]
  | cons p rest ih =>
    by_cases hp : p.1 = k
    · simp only [setVal]
      rw [if_pos hp]
      simp only [lookupVal]
      rw [if_neg (fun hh => h hh.symm), if_neg (by rw [hp]; exact fun hh => h hh.symm)]
    · simp only [setVal]
      rw [if_neg hp]
      simp only [lookupVal]
      by_cases hpk : p.1 = k'
      · rw [if_pos hpk, if_pos hpk]
      · rw [if_neg hpk, if_neg hpk]
        exact ih

/-- With unique names, the name determines the field. -/
theorem name_unique (fields : List FieldSpec)
    (hnd : (fieldNames fields).Nodup) :
    ∀ f1 ∈ fields, ∀ f2 ∈ fields, f1.name = f2.name → f1 = f2 := by
  induction fields with
  | nil => intro f1 h; cases h
  | cons g rest ih =>
    simp only [fieldNames, List.map_cons, List.nodup_cons] at hnd
    intro f1 h1 f2 h2 hname
    rcases List.mem_cons.mp h1 with e1 | m1
    · rcases List.mem_cons.mp h2 with e2 | m2
      · rw [e1, e2]
      · exfalso
        apply hnd.1
        rw [show g.name = f2.name from e1 ▸ hname]
        exact List.mem_map_of_mem (fun f => f.name) m2
    · rcases List.mem_cons.mp h2 with e2 | m2
      · exfalso
        apply hnd.1
        rw [show g.name = f1.name from (e2 ▸ hname).symm]
        exact List.mem_map_of_mem (fun f => f.name) m1
      · exact ih hnd.2 f1 m1 f2 m2 hname

/-- With unique names, `find?` over the field list locates exactly the
member carrying that name. -/
theorem find_name_unique (fields : List FieldSpec)
    (hnd : (fieldNames fields).Nodup) (T : FieldSpec) (hT : T ∈ fields) :
    fields.find? (fun f => f.name == T.name) = some T := by
  induction fields with
  | nil => cases hT
  | cons g rest ih =>
    simp only [fieldNames, List.map_cons, List.nodup_cons] at hnd
    rcases List.mem_cons.mp hT with h | h
    · subst h
      simp [List.find?]
    · have hne : g.name ≠ T.name := by
        intro hh
        exact hnd.1 (hh ▸ List.mem_map_of_mem (fun f => f.name) h)
      simp only [List.find?]
      rw [show (g.name == T.name) = false from beq_eq_false_iff_ne.mpr hne]
      exact ih hnd.2 h

/-- `field_map.get(T.name)` returns `T` itself when names are unique. -/
theorem fieldMapGet_unique (fields : List FieldSpec)
    (hnd : (fieldNames fields).Nodup) (T : FieldSpec) (hT : T ∈ fields) :
    fieldMapGet fields T.name = some T := by
  unfold fieldMapGet
  apply find_name_unique
  · simp only [fieldNames] at hnd ⊢
    rw [List.map_reverse]
    exact List.nodup_reverse.mpr hnd
  · exact List.mem_reverse.mpr hT

theorem pass1_append (l1 l2 : List FieldSpec) (vs : List (String × Value)) (r : Rng) :
    pass1 (l1 ++ l2) vs r =
      (match pass1 l1 vs r with
       | .error e => .error e
       | .ok (vs1, r1) => pass1 l2 vs1 r1) := by
  induction l1 generalizing vs r with
  | nil => simp [pass1]
  | cons f rest ih =>
    simp only [List.cons_append, pass1]
    by_cases hd : isDerived f
    · rw [if_pos hd, if_pos hd]
      exact ih vs r
    · rw [if_neg hd, if_neg hd]
      cases f.default with
      | some d => exact ih (setVal vs f.name d) r
      | none =>
        cases generate_field_value f r with
        | error e => rfl
        | ok p => exact ih (setVal vs f.name p.1) p.2

theorem pass2_append (all l1 l2 : List FieldSpec) (vs : List (String × Value)) :
    pass2 all (l1 ++ l2) vs =
      (match pass2 all l1 vs with
       | .error e => .error e
       | .ok vs1 => pass2 all l2 vs1) := by
  induction l1 generalizing vs with
  | nil => simp [pass2]
  | cons f rest ih =>
    cases hl : lengthOfName f with
    | none =>
      simp only [List.cons_append, pass2, hl]
      exact ih vs
    | some tgt =>
      cases hm : fieldMapGet all tgt with
      | none =>
        simp only [List.cons_append, pass2, hl, hm]
        exact ih (setVal vs f.name (.VInt 0))
      | some tf =>
        cases he : ensure_bytes ((lookupVal vs tgt).getD (.VBytes [])) tf with
        | error e => simp only [List.cons_append, pass2, hl, hm, he]
        | ok tb =>
          simp only [List.cons_append, pass2, hl, hm, he]
          exact ih (setVal vs f.name (.VInt tb.length))

theorem pass3_append (l1 l2 : List FieldSpec) (vs : List (String × Value))
    (buf : ByteString) (spans : List (String × (Nat × Nat))) :
    pass3 (l1 ++ l2) vs buf spans =
      (match pass3 l1 vs buf spans with
       | .error e => .error e
       | .ok (buf1, spans1) => pass3 l2 vs buf1 spans1) := by
  induction l1 generalizing buf spans with
  | nil => simp [pass3]
  | cons f rest ih =>
    cases hv : lookupVal vs f.name with
    | none => simp only [List.cons_append, pass3, hv]
    | some v =>
      cases he : ensure_bytes v f with
      | error e => simp only [List.cons_append, pass3, hv, he]
      | ok bs =>
        simp only [List.cons_append, pass3, hv, he]
        exact ih (buf ++ bs) (setVal spans f.name (buf.length, buf.length + bs.length))

/-- Pass 1 only writes the names of non-derived fields. -/
theorem pass1_preserve (fields : List FieldSpec) :
    ∀ vs r vs' r', pass1 fields vs r = .ok (vs', r') →
      ∀ n, (∀ f ∈ fields, isDerived f = false → f.name ≠ n) →
      lookupVal vs' n = lookupVal vs n := by
  induction fields with
  | nil =>
    intro vs r vs' r' h n _
    simp only [pass1] at h
    cases h
    rfl
  | cons f rest ih =>
    intro vs r vs' r' h n hn
    simp only [pass1] at h
    by_cases hd : isDerived f
    · rw [if_pos hd] at h
      exact ih vs r vs' r' h n (fun g hg => hn g (List.mem_cons_of_mem _ hg))
    · rw [if_neg hd] at h
      have hne : f.name ≠ n :=
        hn f (List.mem_cons_self _ _) (Bool.not_eq_true _ ▸ eq_false_of_ne_true hd)
      cases hdef : f.default with
      | some d =>
        rw [hdef] at h
        rw [ih _ _ _ _ h n (fun g hg => hn g (List.mem_cons_of_mem _ hg))]
        exact lookup_set_ne vs f.name n d hne.symm
      | none =>
        rw [hdef] at h
        cases hgen : generate_field_value f r with
        | error e => rw [hgen] at h; cases h
        | ok p =>
          rw [hgen] at h
          rw [ih _ _ _ _ h n (fun g hg => hn g (List.mem_cons_of_mem _ hg))]
          exact lookup_set_ne vs f.name n p.1 hne.symm

/-- Pass 2 only writes the names of derived fields. -/
theorem pass2_preserve (all : List FieldSpec) (fields : List FieldSpec) :
    ∀ vs vs', pass2 all fields vs = .ok vs' →
      ∀ n, (∀ f ∈ fields, ∀ t, lengthOfName f = some t → f.name ≠ n) →
      lookupVal vs' n = lookupVal vs n := by
  induction fields with
  | nil =>
    intro vs vs' h n _
    simp only [pass2] at h
    cases h
    rfl
  | cons f rest ih =>
    intro vs vs' h n hn
    cases hl : lengthOfName f with
    | none =>
      simp only [pass2, hl] at h
      exact ih vs vs' h n (fun g hg => hn g (List.mem_cons_of_mem _ hg))
    | some tgt =>
      have hne : f.name ≠ n := hn f (List.mem_cons_self _ _) tgt hl
      cases hm : fieldMapGet all tgt with
      | none =>
        simp only [pass2, hl, hm] at h
        rw [ih _ _ h n (fun g hg => hn g (List.mem_cons_of_mem _ hg))]
        exact lookup_set_ne vs f.name n _ hne.symm
      | some tf =>
        cases he : ensure_bytes ((lookupVal vs tgt).getD (.VBytes [])) tf with
        | error e =>
          simp only [pass2, hl, hm, he] at h
          cases h
        | ok tb =>
          simp only [pass2, hl, hm, he] at h
          rw [ih _ _ h n (fun g hg => hn g (List.mem_cons_of_mem _ hg))]
          exact lookup_set_ne vs f.name n _ hne.symm

/-- Pass 1 binds some value to every non-derived field. -/
theorem pass1_sets (fields : List FieldSpec)
    (hnd : (fieldNames fields).Nodup) (T : FieldSpec) (hT : T ∈ fields)
    (hTnd : isDerived T = false) :
    ∀ vs r vs' r', pass1 fields vs r = .ok (vs', r') →
      ∃ v, lookupVal vs' T.name = some v := by
  obtain ⟨pre, post, hsplit⟩ := List.append_of_mem hT
  subst hsplit
  have hnames : T.name ∉ fieldNames post := by
    simp only [fieldNames, List.map_append, List.map_cons] at hnd
    have h2 := (List.nodup_append.mp hnd).2.1
    exact (List.nodup_cons.mp h2).1
  have hpost : ∀ vsmid rmid vs' r' v0, pass1 post vsmid rmid = .ok (vs', r') →
      lookupVal vsmid T.name = some v0 → ∃ v, lookupVal vs' T.name = some v := by
    intro vsmid rmid vs' r' v0 hrun hv
    refine ⟨v0, ?_⟩
    rw [pass1_preserve post vsmid rmid vs' r' hrun T.name ?_, hv]
    intro f hf _ hname
    exact hnames (hname ▸ List.mem_map_of_mem (fun g => g.name) hf)
  intro vs r vs' r' h
  rw [pass1_append] at h
  cases h1 : pass1 pre vs r with
  | error e => rw [h1] at h; cases h
  | ok p =>
    rw [h1] at h
    simp only [pass1] at h
    rw [if_neg (by simp [hTnd])] at h
    cases hdef : T.default with
    | some d =>
      rw [hdef] at h
      exact hpost _ _ _ _ d h (lookup_set_self p.1 T.name d)
    | none =>
      rw [hdef] at h
      cases hgen : generate_field_value T p.2 with
      | error e => rw [hgen] at h; cases h
      | ok q =>
        rw [hgen] at h
        exact hpost _ _ _ _ q.1 h (lookup_set_self p.1 T.name q.1)

/-- Pass 3 only ever appends to the buffer. -/
theorem pass3_buf_prefix (fields : List FieldSpec) :
    ∀ vs buf spans buf' spans', pass3 fields vs buf spans = .ok (buf', spans') →
      ∃ suf, buf' = buf ++ suf := by
  induction fields with
  | nil =>
    intro vs buf spans buf' spans' h
    simp only [pass3] at h
    cases h
    exact ⟨[], by simp⟩
  | cons f rest ih =>
    intro vs buf spans buf' spans' h
    cases hv : lookupVal vs f.name with
    | none => simp only [pass3, hv] at h; cases h
    | some v =>
      cases he : ensure_bytes v f with
      | error e => simp only [pass3, hv, he] at h; cases h
      | ok bs =>
        simp only [pass3, hv, he] at h
        obtain ⟨suf, hsuf⟩ := ih _ _ _ _ _ h
        exact ⟨bs ++ suf, by rw [hsuf, List.append_assoc]⟩

/-- Pass 3 writes only the names of the fields it processes. -/
theorem pass3_span_preserve (fields : List FieldSpec) :
    ∀ vs buf spans buf' spans', pass3 fields vs buf spans = .ok (buf', spans') →
      ∀ n, (∀ f ∈ fields, f.name ≠ n) →
      lookupVal spans' n = lookupVal spans n := by
  induction fields with
  | nil =>
    intro vs buf spans buf' spans' h n _
    simp only [pass3] at h
    cases h
    rfl
  | cons f rest ih =>
    intro vs buf spans buf' spans' h n hn
    cases hv : lookupVal vs f.name with
    | none => simp only [pass3, hv] at h; cases h
    | some v =>
      cases he : ensure_bytes v f with
      | error e => simp only [pass3, hv, he] at h; cases h
      | ok bs =>
        simp only [pass3, hv, he] at h
        rw [ih _ _ _ _ _ h n (fun g hg => hn g (List.mem_cons_of_mem _ hg))]
        exact lookup_set_ne spans f.name n _ (hn f (List.mem_cons_self _ _)).symm

/-- Extracting the middle block of a concatenation by its span. -/
theorem pySlice_middle (a b c : List Nat) :
    pySlice (a ++ b ++ c) a.length (a.length + b.length) = b := by
  unfold pySlice
  rw [show a.length + b.length = (a ++ b).length by simp]
  rw [List.take_left]
  rw [List.drop_left]

/-- Pass 3 records for every field (with unique names) a span pointing
at exactly that field's serialized bytes inside the final buffer. -/
theorem pass3_field (fields : List FieldSpec)
    (hnd : (fieldNames fields).Nodup) (T : FieldSpec) (hT : T ∈ fields) :
    ∀ vs buf spans buf' spans', pass3 fields vs buf spans = .ok (buf', spans') →
      ∃ tv tb s, lookupVal vs T.name = some tv ∧ ensure_bytes tv T = .ok tb ∧
        lookupVal spans' T.name = some (s, s + tb.length) ∧
        pySlice buf' s (s + tb.length) = tb := by
  obtain ⟨pre, post, hsplit⟩ := List.append_of_mem hT
  subst hsplit
  have hnames : T.name ∉ fieldNames post := by
    simp only [fieldNames, List.map_append, List.map_cons] at hnd
    have h2 := (List.nodup_append.mp hnd).2.1
    exact (List.nodup_cons.mp h2).1
  intro vs buf spans buf' spans' h
  rw [pass3_append] at h
  cases h1 : pass3 pre vs buf spans with
  | error e => rw [h1] at h; cases h
  | ok p =>
    rw [h1] at h
    obtain ⟨buf1, spans1⟩ := p
    cases hv : lookupVal vs T.name with
    | none => simp only [pass3, hv] at h; cases h
    | some tv =>
      cases he : ensure_bytes tv T with
      | error e => simp only [pass3, hv, he] at h; cases h
      | ok tb =>
        simp only [pass3, hv, he] at h
        obtain ⟨suf, hsuf⟩ := pass3_buf_prefix post _ _ _ _ _ h
        refine ⟨tv, tb, buf1.length, rfl, he, ?_, ?_⟩
        · rw [pass3_span_preserve post _ _ _ _ _ h T.name ?_]
          · exact lookup_set_self spans1 T.name _
          · intro f hf hfn
            exact hnames (hfn ▸ List.mem_map_of_mem (fun g => g.name) hf)
        · rw [hsuf, pySlice_middle]

/-- In a name-unique split `pre ++ x :: post`, `x`'s name occurs in
neither side. -/
theorem split_name_notin (pre post : List FieldSpec) (x : FieldSpec)
    (hnd : (fieldNames (pre ++ x :: post)).Nodup) :
    x.name ∉ fieldNames post ∧ x.name ∉ fieldNames pre := by
  simp only [fieldNames, List.map_append, List.map_cons] at hnd
  obtain ⟨h1, h2, hdisj⟩ := List.nodup_append.mp hnd
  constructor
  · exact (List.nodup_cons.mp h2).1
  · intro hmem
    exact hdisj hmem (List.mem_cons_self _ _)

/-- C1: for a derived-length field `L` whose target `T` is not itself
derived, the resolved value of `L` in the returned values map is the
byte length of `T`'s resolved value under `T`'s own serialization rules,
and `T`'s recorded span selects exactly those bytes in the buffer. -/
theorem derived_length_correct (schema : ProtocolSchema) (r : Rng)
    (msg : GeneratedMessage) (r' : Rng)
    (hnd : (fieldNames schema.message.fields).Nodup)
    (L T : FieldSpec) (hL : L ∈ schema.message.fields)
    (hT : T ∈ schema.message.fields)
    (hLT : lengthOfName L = some T.name)
    (hTnd : isDerived T = false)
    (hgen : generate_valid_message schema r = .ok (msg, r')) :
    ∃ tv tb s, lookupVal msg.values T.name = some tv
      ∧ ensure_bytes tv T = .ok tb
      ∧ lookupVal msg.values L.name = some (.VInt tb.length)
      ∧ lookupVal msg.field_spans T.name = some (s, s + tb.length)
      ∧ pySlice msg.data s (s + tb.length) = tb := by
  have hLder : isDerived L = true := by simp [isDerived, hLT]
  have hLneT : L.name ≠ T.name := by
    intro hh
    have := name_unique schema.message.fields hnd L hL T hT hh
    rw [this] at hLder
    rw [hLder] at hTnd
    cases hTnd
  unfold generate_valid_message at hgen
  cases h1 : pass1 schema.message.fields [] r with
  | error e => rw [h1] at hgen; cases hgen
  | ok p1 =>
    obtain ⟨vs1, r1⟩ := p1
    rw [h1] at hgen
    dsimp only at hgen
    cases h2 : pass2 schema.message.fields schema.message.fields vs1 with
    | error e => rw [h2] at hgen; cases hgen
    | ok vs2 =>
      rw [h2] at hgen
      dsimp only at hgen
      cases h3 : pass3 schema.message.fields vs2 [] [] with
      | error e => rw [h3] at hgen; cases hgen
      | ok p3 =>
        obtain ⟨buf3, spans3⟩ := p3
        rw [h3] at hgen
        dsimp only at hgen
        cases hgen
        obtain ⟨tv1, htv1⟩ :=
          pass1_sets schema.message.fields hnd T hT hTnd [] r vs1 r' h1
        obtain ⟨preL, postL, hsplit⟩ := List.append_of_mem hL
        have hLpost := (split_name_notin preL postL L (hsplit ▸ hnd)).1
        nth_rewrite 2 [hsplit] at h2
        rw [pass2_append] at h2
        cases hA : pass2 schema.message.fields preL vs1 with
        | error e => rw [hA] at h2; cases h2
        | ok vsA =>
          rw [hA] at h2
          dsimp only at h2
          have hmemPre : ∀ f ∈ preL, f ∈ schema.message.fields := by
            intro f hf
            rw [hsplit]
            exact List.mem_append_left _ hf
          have hmemPost : ∀ f ∈ postL, f ∈ schema.message.fields := by
            intro f hf
            rw [hsplit]
            exact List.mem_append_right _ (List.mem_cons_of_mem _ hf)
          have hTvsA : lookupVal vsA T.name = some tv1 := by
            rw [pass2_preserve schema.message.fields preL vs1 vsA hA T.name ?_, htv1]
            intro f hf t hft hfn
            have hfT := name_unique schema.message.fields hnd f (hmemPre f hf) T hT hfn
            rw [hfT] at hft
            simp [isDerived, hft] at hTnd
          simp only [pass2, hLT] at h2
          rw [fieldMapGet_unique schema.message.fields hnd T hT] at h2
          rw [hTvsA] at h2
          simp only [Option.getD_some] at h2
          cases hens : ensure_bytes tv1 T with
          | error e => rw [hens] at h2; cases h2
          | ok tb =>
            rw [hens] at h2
            dsimp only at h2
            have hLvs2 : lookupVal vs2 L.name = some (.VInt tb.length) := by
              rw [pass2_preserve schema.message.fields postL _ vs2 h2 L.name ?_]
              · exact lookup_set_self vsA L.name _
              · intro f hf t hft hfn
                exact hLpost (hfn ▸ List.mem_map_of_mem (fun g => g.name) hf)
            have hTvs2 : lookupVal vs2 T.name = some tv1 := by
              rw [pass2_preserve schema.message.fields postL _ vs2 h2 T.name ?_]
              · rw [lookup_set_ne vsA L.name T.name _ hLneT.symm]
                exact hTvsA
              · intro f hf t hft hfn
                have hfT := name_unique schema.message.fields hnd f (hmemPost f hf) T hT hfn
                rw [hfT] at hft
                simp [isDerived, hft] at hTnd
            obtain ⟨tv2, tb2, s, htv2, htb2, hspan, hslice⟩ :=
              pass3_field schema.message.fields hnd T hT vs2 [] [] buf3 spans3 h3
            rw [hTvs2] at htv2
            cases htv2
            rw [hens] at htb2
            cases htb2
            exact ⟨tv1, tb, s, hTvs2, hens, hLvs2, hspan, hslice⟩

/-- The `[opcode, length, payload]` schema from the repository's tests. -/
def simpleSchema : ProtocolSchema :=
  { name := "Simple",
    transport := { type := "tcp", host := "x", port := 1 },
    message := ⟨[
      { name := "opcode", type := "u8", default := some (.VInt 1) },
      { name := "length", type := "u16", length_of := some "payload" },
      { name := "payload", type := "bytes", min_length := some 1, max_length := some 4 }]⟩ }

/-- The field `length` of `simpleSchema`. -/
def simpleLenField : FieldSpec :=
  { name := "length", type := "u16", length_of := some "payload" }

/-- The field `payload` of `simpleSchema`. -/
def simplePayloadField : FieldSpec :=
  { name := "payload", type := "bytes", min_length := some 1, max_length := some 4 }

/-- The message `generate_valid_message(simpleSchema, rng)` produces from
the draw stream `[0, 7]` (payload length 1, payload byte 7). -/
def simpleMsg : GeneratedMessage :=
  ⟨[1, 0, 1, 7],
   [("opcode", .VInt 1), ("payload", .VBytes [7]), ("length", .VInt 1)],
   [("opcode", (0, 1)), ("length", (1, 3)), ("payload", (3, 4))]⟩

/-- C1 witness: the length/target relationship evaluated on a concrete
generated message of the test schema. -/
theorem derived_length_correct_witness :
    ∃ tv tb s, lookupVal simpleMsg.values simplePayloadField.name = some tv
      ∧ ensure_bytes tv simplePayloadField = .ok tb
      ∧ lookupVal simpleMsg.values simpleLenField.name = some (.VInt tb.length)
      ∧ lookupVal simpleMsg.field_spans simplePayloadField.name = some (s, s + tb.length)
      ∧ pySlice simpleMsg.data s (s + tb.length) = tb :=
  derived_length_correct simpleSchema [0, 7] simpleMsg []
    (by decide) simpleLenField simplePayloadField (by decide) (by decide)
    (by decide) (by decide) rfl

theorem toBytesBE_length (w : Nat) : ∀ n, (toBytesBE w n).length = w := by
  induction w with
  | zero => intro n; rfl
  | succ w ih =>
    intro n
    simp only [toBytesBE, List.length_append, List.length_cons, List.length_nil, ih]

/-- The serialized width `_ensure_bytes` uses for an integer value, when
one of its fixed-width branches applies. -/
def intWidth (f : FieldSpec) : Option Nat :=
  if f.type = "u8" ∨ (f.type = "enum" ∧ lengthOr f 1 = 1) then some 1
  else if f.type = "u16" ∨ (f.type = "enum" ∧ lengthOr f 2 = 2) then some 2
  else if f.type = "u32" ∨ (f.type = "enum" ∧ lengthOr f 4 = 4) then some 4
  else none

/-- Serializing any integer under a fixed-width branch succeeds and
produces exactly the branch's width in bytes. -/
theorem ensure_bytes_vint_len (f : FieldSpec) (w : Nat)
    (h : intWidth f = some w) (v : Int) :
    ∃ bs, ensure_bytes (.VInt v) f = .ok bs ∧ bs.length = w := by
  unfold intWidth at h
  simp only [ensure_bytes]
  by_cases h1 : f.type = "u8" ∨ (f.type = "enum" ∧ lengthOr f 1 = 1)
  · rw [if_pos h1] at h ⊢
    cases h
    exact ⟨_, rfl, rfl⟩
  · rw [if_neg h1] at h ⊢
    by_cases h2 : f.type = "u16" ∨ (f.type = "enum" ∧ lengthOr f 2 = 2)
    · rw [if_pos h2] at h ⊢
      cases h
      exact ⟨_, rfl, toBytesBE_length 2 _⟩
    · rw [if_neg h2] at h ⊢
      by_cases h3 : f.type = "u32" ∨ (f.type = "enum" ∧ lengthOr f 4 = 4)
      · rw [if_pos h3] at h ⊢
        cases h
        exact ⟨_, rfl, toBytesBE_length 4 _⟩
      · rw [if_neg h3] at h
        cases h

/-- What pass 2 stores for a derived field `L` with target field `M`:
the serialized length of the value bound to `M.name` when `L` is
reached (names unique, generation succeeded). -/
theorem pass2_L_value (all : List FieldSpec)
    (hnd : (fieldNames all).Nodup)
    (L M : FieldSpec) (hM : M ∈ all) (hLM : lengthOfName L = some M.name)
    (pre post : List FieldSpec) (hsplit : all = pre ++ L :: post)
    (vs1 vs2 : List (String × Value)) (h2 : pass2 all all vs1 = .ok vs2) :
    ∃ vsA, pass2 all pre vs1 = .ok vsA ∧
      ∃ tb, ensure_bytes ((lookupVal vsA M.name).getD (.VBytes [])) M = .ok tb ∧
        lookupVal vs2 L.name = some (.VInt tb.length) := by
  have hLpost := (split_name_notin pre post L (hsplit ▸ hnd)).1
  nth_rewrite 2 [hsplit] at h2
  rw [pass2_append] at h2
  cases hA : pass2 all pre vs1 with
  | error e => rw [hA] at h2; cases h2
  | ok vsA =>
    rw [hA] at h2
    dsimp only at h2
    simp only [pass2, hLM] at h2
    rw [fieldMapGet_unique all hnd M hM] at h2
    dsimp only at h2
    cases hens : ensure_bytes ((lookupVal vsA M.name).getD (.VBytes [])) M with
    | error e => rw [hens] at h2; cases h2
    | ok tb =>
      rw [hens] at h2
      dsimp only at h2
      refine ⟨vsA, rfl, tb, hens, ?_⟩
      rw [pass2_preserve all post _ vs2 h2 L.name ?_]
      · exact lookup_set_self vsA L.name _
      · intro f hf t hft hfn
        exact hLpost (hfn ▸ List.mem_map_of_mem (fun g => g.name) hf)

/-- Pass 2 binds an integer to every derived field it processes (with
unique names in the processed list). -/
theorem pass2_derived_sets (all pre : List FieldSpec)
    (hndp : (fieldNames pre).Nodup) (M : FieldSpec) (hM : M ∈ pre)
    (hMder : isDerived M = true) :
    ∀ vs vs', pass2 all pre vs = .ok vs' →
      ∃ k : Int, lookupVal vs' M.name = some (.VInt k) := by
  obtain ⟨a, b, hsplit⟩ := List.append_of_mem hM
  subst hsplit
  have hMb := (split_name_notin a b M hndp).1
  have hpres : ∀ vsmid vs', pass2 all b vsmid = .ok vs' → ∀ k : Int,
      lookupVal vsmid M.name = some (.VInt k) →
      lookupVal vs' M.name = some (.VInt k) := by
    intro vsmid vs' hrun k hv
    rw [pass2_preserve all b vsmid vs' hrun M.name ?_, hv]
    intro f hf t hft hfn
    exact hMb (hfn ▸ List.mem_map_of_mem (fun g => g.name) hf)
  intro vs vs' h
  rw [pass2_append] at h
  cases hA : pass2 all a vs with
  | error e => rw [hA] at h; cases h
  | ok vsA =>
    rw [hA] at h
    dsimp only at h
    obtain ⟨tgt, htgt⟩ := Option.isSome_iff_exists.mp (by simpa [isDerived] using hMder)
    simp only [pass2, htgt] at h
    cases hm : fieldMapGet all tgt with
    | none =>
      rw [hm] at h
      dsimp only at h
      exact ⟨0, hpres _ _ h 0 (lookup_set_self vsA M.name _)⟩
    | some tf =>
      rw [hm] at h
      dsimp only at h
      cases he : ensure_bytes ((lookupVal vsA tgt).getD (.VBytes [])) tf with
      | error e => rw [he] at h; cases h
      | ok tb =>
        rw [he] at h
        dsimp only at h
        exact ⟨tb.length, hpres _ _ h tb.length (lookup_set_self vsA M.name _)⟩

/-- C9: a derived-length field `L` targeting another derived field `M`
resolves to 0 when `M` is declared after `L` (the unresolved target
defaults to the empty byte string), and to `M`'s serialized integer
width when `M` is declared before `L`. -/
theorem derived_chain_resolution (schema : ProtocolSchema) (r : Rng)
    (msg : GeneratedMessage) (r' : Rng)
    (hnd : (fieldNames schema.message.fields).Nodup)
    (L M : FieldSpec) (hM : M ∈ schema.message.fields)
    (hLM : lengthOfName L = some M.name) (hMder : isDerived M = true)
    (hgen : generate_valid_message schema r = .ok (msg, r')) :
    (∀ pre post, schema.message.fields = pre ++ L :: post → M ∈ post →
      lookupVal msg.values L.name = some (.VInt 0))
    ∧ (∀ pre post w, schema.message.fields = pre ++ M :: post → L ∈ post →
      intWidth M = some w →
      lookupVal msg.values L.name = some (.VInt w)) := by
  unfold generate_valid_message at hgen
  cases h1 : pass1 schema.message.fields [] r with
  | error e => rw [h1] at hgen; cases hgen
  | ok p1 =>
    obtain ⟨vs1, r1⟩ := p1
    rw [h1] at hgen
    dsimp only at hgen
    cases h2 : pass2 schema.message.fields schema.message.fields vs1 with
    | error e => rw [h2] at hgen; cases hgen
    | ok vs2 =>
      rw [h2] at hgen
      dsimp only at hgen
      cases h3 : pass3 schema.message.fields vs2 [] [] with
      | error e => rw [h3] at hgen; cases hgen
      | ok p3 =>
        obtain ⟨buf3, spans3⟩ := p3
        rw [h3] at hgen
        dsimp only at hgen
        cases hgen
        constructor
        · intro pre post hsplit hMpost
          obtain ⟨vsA, hA, tb, hens, hLval⟩ :=
            pass2_L_value schema.message.fields hnd L M hM hLM pre post hsplit vs1 vs2 h2
          have hvs1M : lookupVal vs1 M.name = none := by
            rw [pass1_preserve schema.message.fields [] r vs1 r' h1 M.name ?_]
            · rfl
            · intro f hf hfnd hfn
              have := name_unique schema.message.fields hnd f hf M hM hfn
              rw [this] at hfnd
              rw [hMder] at hfnd
              cases hfnd
          have hvsAM : lookupVal vsA M.name = none := by
            rw [pass2_preserve schema.message.fields pre vs1 vsA hA M.name ?_, hvs1M]
            intro f hf t hft hfn
            have hnd' := hsplit ▸ hnd
            simp only [fieldNames, List.map_append, List.map_cons] at hnd'
            have hdisj := (List.nodup_append.mp hnd').2.2
            have hm1 : M.name ∈ List.map (fun g => g.name) pre := by
              rw [← hfn]
              exact List.mem_map_of_mem (fun g => g.name) hf
            have hm2 : M.name ∈ L.name :: List.map (fun g => g.name) post :=
              List.mem_cons_of_mem _ (List.mem_map_of_mem (fun g => g.name) hMpost)
            exact hdisj hm1 hm2
          rw [hvsAM] at hens
          simp only [Option.getD_none] at hens
          simp only [ensure_bytes] at hens
          cases hens
          simpa using hLval
        · intro preM postM w hsplit hLpost hw
          obtain ⟨pre2, post2, hsplit2⟩ := List.append_of_mem hLpost
          have hsplitL : schema.message.fields = (preM ++ M :: pre2) ++ L :: post2 := by
            rw [hsplit, hsplit2]
            simp [List.append_assoc]
          obtain ⟨vsA, hA, tb, hens, hLval⟩ :=
            pass2_L_value schema.message.fields hnd L M hM hLM
              (preM ++ M :: pre2) post2 hsplitL vs1 vs2 h2
          have hndpre : (fieldNames (preM ++ M :: pre2)).Nodup := by
            have hnd' := hsplitL ▸ hnd
            simp only [fieldNames, List.map_append, List.map_cons] at hnd' ⊢
            exact (List.nodup_append.mp hnd').1
          obtain ⟨k, hk⟩ :=
            pass2_derived_sets schema.message.fields (preM ++ M :: pre2) hndpre M
              (List.mem_append_right _ (List.mem_cons_self _ _)) hMder vs1 vsA hA
          rw [hk] at hens
          simp only [Option.getD_some] at hens
          obtain ⟨bs, hbs, hlen⟩ := ensure_bytes_vint_len M w hw k
          rw [hbs] at hens
          cases hens
          rw [hlen] at hLval
          exact hLval

/-- Field `lenL`: derived length targeting the derived field `lenM`. -/
def lenLField : FieldSpec := { name := "lenL", type := "u8", length_of := some "lenM" }

/-- Field `lenM` (1-byte variant): derived length targeting `body`. -/
def lenMField8 : FieldSpec := { name := "lenM", type := "u8", length_of := some "body" }

/-- Field `lenM` (2-byte variant): derived length targeting `body`. -/
def lenMField16 : FieldSpec := { name := "lenM", type := "u16", length_of := some "body" }

/-- A one-byte payload field. -/
def bodyField : FieldSpec :=
  { name := "body", type := "bytes", min_length := some 1, max_length := some 1 }

/-- Chain schema with `lenL` declared before its target `lenM`. -/
def chainSchemaLM : ProtocolSchema :=
  { name := "ChainLM",
    transport := { type := "tcp", host := "x", port := 1 },
    message := ⟨[lenLField, lenMField8, bodyField]⟩ }

/-- Chain schema with the target `lenM` declared before `lenL`. -/
def chainSchemaML : ProtocolSchema :=
  { name := "ChainML",
    transport := { type := "tcp", host := "x", port := 1 },
    message := ⟨[lenMField16, lenLField, bodyField]⟩ }

/-- The message `chainSchemaLM` generates from the stream `[0, 5]`. -/
def chainMsgLM : GeneratedMessage :=
  ⟨[0, 1, 5],
   [("body", .VBytes [5]), ("lenL", .VInt 0), ("lenM", .VInt 1)],
   [("lenL", (0, 1)), ("lenM", (1, 2)), ("body", (2, 3))]⟩

/-- The message `chainSchemaML` generates from the stream `[0, 5]`. -/
def chainMsgML : GeneratedMessage :=
  ⟨[0, 1, 2, 5],
   [("body", .VBytes [5]), ("lenM", .VInt 1), ("lenL", .VInt 2)],
   [("lenM", (0, 2)), ("lenL", (2, 3)), ("body", (3, 4))]⟩

/-- C9 witness: the chain theorem evaluated on the two concrete
declaration orders. -/
theorem derived_chain_resolution_witness :
    lookupVal chainMsgLM.values lenLField.name = some (.VInt 0)
    ∧ lookupVal chainMsgML.values lenLField.name = some (.VInt 2) := by
  constructor
  · exact (derived_chain_resolution chainSchemaLM [0, 5] chainMsgLM []
      (by decide) lenLField lenMField8 (by decide) (by decide) (by decide) rfl).1
      [] [lenMField8, bodyField] rfl (by decide)
  · exact (derived_chain_resolution chainSchemaML [0, 5] chainMsgML []
      (by decide) lenLField lenMField16 (by decide) (by decide) (by decide) rfl).2
      [] [lenLField, bodyField] 2 rfl (by decide) (by decide)

/-- C10: serializing an integer for a fixed-width integer or enum field
never raises; the value is reduced modulo `2 ^ (8 * width)` before
packing big-endian. -/
theorem int_serialization_mod (f : FieldSpec) (w : Nat)
    (hw : intWidth f = some w) (v : Int) :
    ∃ bs, ensure_bytes (.VInt v) f = .ok bs
      ∧ bs = toBytesBE w (v % ((2 : Int) ^ (8 * w))).toNat
      ∧ bs.length = w := by
  unfold intWidth at hw
  simp only [ensure_bytes]
  by_cases h1 : f.type = "u8" ∨ (f.type = "enum" ∧ lengthOr f 1 = 1)
  · rw [if_pos h1] at hw ⊢
    cases hw
    refine ⟨[(v % 256).toNat], rfl, ?_, rfl⟩
    have hb : (v % 256).toNat < 256 := by omega
    show [(v % 256).toNat] = toBytesBE 1 (v % (2 : Int) ^ (8 * 1)).toNat
    norm_num [toBytesBE, Nat.mod_eq_of_lt hb]
  · rw [if_neg h1] at hw ⊢
    by_cases h2 : f.type = "u16" ∨ (f.type = "enum" ∧ lengthOr f 2 = 2)
    · rw [if_pos h2] at hw ⊢
      cases hw
      refine ⟨toBytesBE 2 (v % 65536).toNat, rfl, ?_, toBytesBE_length 2 _⟩
      norm_num
    · rw [if_neg h2] at hw ⊢
      by_cases h3 : f.type = "u32" ∨ (f.type = "enum" ∧ lengthOr f 4 = 4)
      · rw [if_pos h3] at hw ⊢
        cases hw
        refine ⟨toBytesBE 4 (v % 4294967296).toNat, rfl, ?_, toBytesBE_length 4 _⟩
        norm_num
      · rw [if_neg h3] at hw
        cases hw

/-- A `u8` field with the out-of-range default 300. -/
def fieldU8Big : FieldSpec := { name := "big", type := "u8", default := some (.VInt 300) }

/-- C10 witness: the out-of-range default 300 of a `u8` field serializes
without error to the single byte `0x2C`. -/
theorem int_serialization_mod_witness :
    (∃ bs, ensure_bytes (.VInt 300) fieldU8Big = .ok bs
      ∧ bs = toBytesBE 1 ((300 : Int) % ((2 : Int) ^ (8 * 1))).toNat
      ∧ bs.length = 1)
    ∧ ensure_bytes (.VInt 300) fieldU8Big = .ok [44] :=
  ⟨int_serialization_mod fieldU8Big 1 (by decide) 300, rfl⟩

/-- An enum field whose single integer choice needs two bytes. -/
def fieldEnumBig : FieldSpec := { name := "e", type := "enum", choices := [.VInt 256] }

/-- C4 counterexample: for an enum with integer choices above 255 and no
explicit length, the mutator infers width 2, but generation serializes
the value into a single byte — the two widths disagree, and the
generated byte is the value truncated modulo 256. -/
theorem enum_width_counterexample :
    width_bytes fieldEnumBig = 2
    ∧ ensure_bytes (.VInt 256) fieldEnumBig = .ok [0]
    ∧ ([0] : ByteString).length ≠ width_bytes fieldEnumBig := by
  refine ⟨rfl, rfl, by decide⟩

/-- C4 (amended): the mutator's `_width_bytes` follows the inference
rule (truthy explicit length overrides; else integer-choice maximum
≤ 255 → 1, ≤ 65535 → 2, larger → 4; default 1); generation-time enum
serialization instead uses the explicit length when it is 1, 2 or 4 and
otherwise always one byte, ignoring `choices` — so the two agree exactly
when an explicit length of 1, 2 or 4 is set, or when the integer choices
fit in one byte (or are absent). -/
theorem enum_width_inference (f : FieldSpec) (hf : f.type = "enum") :
    (∀ n : Nat, f.length = some (n + 1) → width_bytes f = n + 1)
    ∧ ((f.length = none ∨ f.length = some 0) →
        (intChoicesOf f = [] → width_bytes f = 1)
        ∧ (∀ c cs, intChoicesOf f = c :: cs →
            (maxChoice (c :: cs) ≤ 255 → width_bytes f = 1)
            ∧ (255 < maxChoice (c :: cs) → maxChoice (c :: cs) ≤ 65535 →
                width_bytes f = 2)
            ∧ (65535 < maxChoice (c :: cs) → width_bytes f = 4)))
    ∧ (∀ v : Int, (f.length = none ∨ f.length = some 0) →
        ensure_bytes (.VInt v) f = .ok [(v % 256).toNat])
    ∧ (∀ v : Int, ∀ l : Nat, f.length = some l → (l = 1 ∨ l = 2 ∨ l = 4) →
        ∃ bs, ensure_bytes (.VInt v) f = .ok bs ∧ bs.length = l
          ∧ width_bytes f = l) := by
  have htu8 : ¬ f.type = "u8" := by rw [hf]; decide
  have htu16 : ¬ f.type = "u16" := by rw [hf]; decide
  have htu32 : ¬ f.type = "u32" := by rw [hf]; decide
  refine ⟨?_, ?_, ?_, ?_⟩
  · intro n hlen
    simp [width_bytes, htu8, htu16, htu32, hf, hlen]
  · intro hl
    have hwb : width_bytes f =
        (match intChoicesOf f with
         | [] => 1
         | c :: cs =>
           if maxChoice (c :: cs) ≤ 255 then 1
           else if maxChoice (c :: cs) ≤ 65535 then 2
           else 4) := by
      rcases hl with hl | hl <;>
        simp [width_bytes, htu8, htu16, htu32, hf, hl]
    constructor
    · intro hc
      rw [hwb, hc]
    · intro c cs hc
      rw [hwb, hc]
      dsimp only
      refine ⟨fun h => by rw [if_pos h], fun h1 h2 => ?_, fun h => ?_⟩
      · rw [if_neg (by omega), if_pos h2]
      · rw [if_neg (by omega), if_neg (by omega)]
  · intro v hl
    have hor : lengthOr f 1 = 1 := by
      rcases hl with hl | hl <;> simp [lengthOr, hl]
    simp [ensure_bytes, hf, hor]
  · intro v l hlen hl
    rcases hl with hl | hl | hl
    · subst hl
      refine ⟨[(v % 256).toNat], ?_, rfl, ?_⟩
      · simp [ensure_bytes, hf, lengthOr, hlen]
      · simp [width_bytes, htu8, htu16, htu32, hf, hlen]
    · subst hl
      refine ⟨toBytesBE 2 (v % 65536).toNat, ?_, toBytesBE_length 2 _, ?_⟩
      · simp [ensure_bytes, hf, lengthOr, hlen, htu8]
      · simp [width_bytes, htu8, htu16, htu32, hf, hlen]
    · subst hl
      refine ⟨toBytesBE 4 (v % 4294967296).toNat, ?_, toBytesBE_length 4 _, ?_⟩
      · simp [ensure_bytes, hf, lengthOr, hlen, htu8, htu16]
      · simp [width_bytes, htu8, htu16, htu32, hf, hlen]

/-- A one-byte enum field (choices all ≤ 255). -/
def fieldEnumSmall : FieldSpec := { name := "k", type := "enum", choices := [.VInt 1, .VInt 2, .VInt 255] }

/-- An enum field with an explicit two-byte length. -/
def fieldEnumLen2 : FieldSpec := { name := "k2", type := "enum", length := some 2, choices := [.VInt 300000] }

/-- C4 witness: the amended width rules evaluated on concrete enum
fields. -/
theorem enum_width_inference_witness :
    width_bytes fieldEnumSmall = 1
    ∧ ensure_bytes (.VInt 7) fieldEnumSmall = .ok [7]
    ∧ width_bytes fieldEnumBig = 2
    ∧ (∃ bs, ensure_bytes (.VInt 5) fieldEnumLen2 = .ok bs ∧ bs.length = 2
        ∧ width_bytes fieldEnumLen2 = 2) := by
  refine ⟨?_, ?_, ?_, ?_⟩
  · exact ((((enum_width_inference fieldEnumSmall rfl).2.1 (Or.inl rfl)).2
      1 [2, 255] rfl).1 (by decide))
  · exact (enum_width_inference fieldEnumSmall rfl).2.2.1 7 (Or.inl rfl)
  · exact ((((enum_width_inference fieldEnumBig rfl).2.1 (Or.inl rfl)).2
      256 [] rfl).2.1 (by decide) (by decide))
  · exact (enum_width_inference fieldEnumLen2 rfl).2.2.2 5 2 rfl (Or.inr (Or.inl rfl))

/-- `rng.choice` on a nonempty sequence succeeds and returns a member. -/
theorem chooseE_ok (r : Rng) (xs : List α) (h : xs ≠ []) :
    ∃ x r', chooseE r xs = .ok (x, r') ∧ x ∈ xs := by
  cases xs with
  | nil => exact absurd rfl h
  | cons x rest =>
    refine ⟨(x :: rest).getD ((rngNext r).1 % (x :: rest).length) x, (rngNext r).2, rfl, ?_⟩
    rw [List.getD_eq_get? (x :: rest) _ x]
    cases hg : (x :: rest).get? ((rngNext r).1 % (x :: rest).length) with
    | none => exact List.mem_cons_self _ _
    | some a => exact List.get?_mem hg

/-- The overflow-test schema: a `u8` length field over a 1-byte payload. -/
def c3Schema : ProtocolSchema :=
  { name := "Overflow",
    transport := { type := "tcp", host := "x", port := 1 },
    message := ⟨[
      { name := "len", type := "u8", length_of := some "payload" },
      { name := "payload", type := "bytes", min_length := some 1, max_length := some 1 }]⟩ }

/-- The mutator built over `c3Schema`. -/
def c3Mutator : Mutator := mkMutator c3Schema

/-- A generated message whose `u8` length field currently holds 255. -/
def c3Msg : GeneratedMessage :=
  ⟨[255, 65], [("len", .VInt 255), ("payload", .VBytes [65])],
   [("len", (0, 1)), ("payload", (1, 2))]⟩

/-- C3 counterexample: with the length byte at 255 and the drawn offset
+1, the operator does not raise, but the byte it writes is 0 — it does
not saturate to the maximum representable value 255. -/
theorem corrupt_length_overflow_counterexample :
    corrupt_length c3Mutator [255, 65] c3Msg [0, 2] = .ok ([0, 65], [])
    ∧ pySlice [0, 65] 0 1 ≠ [255] := by
  exact ⟨rfl, by decide⟩

/-- C3 (amended): the corrupt-length operator never raises; whenever it
writes, it writes `width` bytes encoding a value below the width's
capacity into the chosen field's span; negative offsets clamp to 0, and
on overflow of the target width it writes the value 0 (all-zero bytes),
not the saturated maximum. -/
theorem corrupt_length_saturation :
    (∀ (m : Mutator) (buf : ByteString) (msg : GeneratedMessage) (r : Rng),
      ∃ out, corrupt_length m buf msg r = .ok out
        ∧ (out.1 = buf ∨ ∃ f s e v, f ∈ m.length_fields
            ∧ lookupVal msg.field_spans f.name = some (s, e)
            ∧ v < 2 ^ (8 * width_bytes f)
            ∧ out.1 = pySetSlice buf s e (toBytesBE (width_bytes f) v)))
    ∧ corrupt_length c3Mutator [255, 65] c3Msg [0, 2] = .ok ([0, 65], [])
    ∧ corrupt_length c3Mutator [0, 65] c3Msg [0, 0] = .ok ([0, 65], []) := by
  refine ⟨?_, rfl, rfl⟩
  intro m buf msg r
  unfold corrupt_length
  by_cases hg : m.length_fields = [] ∨ msg.field_spans = []
  · rw [if_pos hg]
    exact ⟨(buf, r), rfl, Or.inl rfl⟩
  · rw [if_neg hg]
    have hne : m.length_fields ≠ [] := fun hh => hg (Or.inl hh)
    obtain ⟨f, r1, hch, hfmem⟩ := chooseE_ok r m.length_fields hne
    rw [hch]
    dsimp only
    cases hsp : lookupVal msg.field_spans f.name with
    | none => exact ⟨(buf, r1), rfl, Or.inl rfl⟩
    | some se =>
      obtain ⟨s, e⟩ := se
      dsimp only
      obtain ⟨off, r2, hch2, _⟩ := chooseE_ok r1
        ([-2, -1, 1, 2] ++ (if fromBytesBE (pySlice buf s e) < (2 ^ (8 * width_bytes f) - 1) / 2
          then [2 * (fromBytesBE (pySlice buf s e) : Int) + 1] else []))
        (by intro hh; cases hh)
      rw [hch2]
      dsimp only
      by_cases hlt : max 0 ((fromBytesBE (pySlice buf s e) : Int) + off)
          < (2 : Int) ^ (8 * width_bytes f)
      · rw [if_pos hlt]
        refine ⟨_, rfl, Or.inr ⟨f, s, e,
          (max 0 ((fromBytesBE (pySlice buf s e) : Int) + off)).toNat,
          hfmem, hsp, ?_, rfl⟩⟩
        have h0 : (0 : Int) ≤ max 0 ((fromBytesBE (pySlice buf s e) : Int) + off) :=
          le_max_left 0 _
        have hc : ((2 : Int) ^ (8 * width_bytes f))
            = ((2 ^ (8 * width_bytes f) : Nat) : Int) := by
          push_cast
          ring
        omega
      · rw [if_neg hlt]
        refine ⟨_, rfl, Or.inr ⟨f, s, e, 0, hfmem, hsp, ?_, rfl⟩⟩
        exact Nat.pos_pow_of_pos _ (by norm_num)

theorem randbytes_length (n : Nat) : ∀ r, ((randbytes r n).1).length = n := by
  induction n with
  | zero => intro r; rfl
  | succ n ih =>
    intro r
    simp only [randbytes, List.length_cons]
    rw [ih]

/-- A `GeneratedMessage` with a span entry but an empty buffer. -/
def emptyBufMsg : GeneratedMessage := ⟨[], [], [("len", (0, 1))]⟩

/-- C6 counterexample: applied to an empty buffer whose span map still
holds the length field's span, the corrupt-length operator writes a byte
instead of degrading to a no-op (it does not raise). -/
theorem mutator_empty_buffer_counterexample :
    corrupt_length c3Mutator [] emptyBufMsg [0, 0] = .ok ([0], [])
    ∧ ([0] : ByteString) ≠ [] := by
  exact ⟨rfl, by decide⟩

/-- C6 (amended): no operator raises on the degenerate inputs; bit flip,
random byte and truncate are no-ops on an empty buffer; extend appends
1–8 bytes; corrupt length and invalid enum are no-ops whenever the span
map is empty, or when every eligible field's span is missing — but with
an empty buffer and a surviving span entry they may still write bytes. -/
theorem mutation_operators_degenerate :
    (∀ r : Rng,
      bit_flip [] r = .ok ([], r)
      ∧ random_byte [] r = .ok ([], r)
      ∧ truncate [] r = .ok ([], r)
      ∧ (∃ bs r', extend [] r = .ok (bs, r') ∧ 1 ≤ bs.length ∧ bs.length ≤ 8))
    ∧ (∀ (m : Mutator) (buf : ByteString) (msg : GeneratedMessage) (r : Rng),
        msg.field_spans = [] →
        corrupt_length m buf msg r = .ok (buf, r)
        ∧ invalid_enum m buf msg r = .ok (buf, r))
    ∧ (∀ (m : Mutator) (buf : ByteString) (msg : GeneratedMessage) (r : Rng),
        (∀ f ∈ m.length_fields, lookupVal msg.field_spans f.name = none) →
        ∃ r', corrupt_length m buf msg r = .ok (buf, r'))
    ∧ (∀ (m : Mutator) (buf : ByteString) (msg : GeneratedMessage) (r : Rng),
        (∀ f ∈ m.enum_fields, lookupVal msg.field_spans f.name = none) →
        ∃ r', invalid_enum m buf msg r = .ok (buf, r')) := by
  refine ⟨?_, ?_, ?_, ?_⟩
  · intro r
    refine ⟨rfl, rfl, rfl, ?_⟩
    simp only [extend, randintE]
    rw [if_neg (by norm_num)]
    refine ⟨(randbytes (rngNext r).2 ((1 : Int) + ((rngNext r).1 : Int) % (8 - 1 + 1)).toNat).1,
      (randbytes (rngNext r).2 ((1 : Int) + ((rngNext r).1 : Int) % (8 - 1 + 1)).toNat).2,
      rfl, ?_, ?_⟩
    · rw [randbytes_length]
      have h1 : (0 : Int) ≤ ((rngNext r).1 : Int) % (8 - 1 + 1) := by omega
      omega
    · rw [randbytes_length]
      have h2 : ((rngNext r).1 : Int) % (8 - 1 + 1) < 8 := by omega
      have h1 : (0 : Int) ≤ ((rngNext r).1 : Int) % (8 - 1 + 1) := by omega
      omega
  · intro m buf msg r hsp
    constructor
    · unfold corrupt_length
      rw [if_pos (Or.inr hsp)]
    · unfold invalid_enum
      rw [if_pos (Or.inr hsp)]
  · intro m buf msg r hall
    unfold corrupt_length
    by_cases hg : m.length_fields = [] ∨ msg.field_spans = []
    · rw [if_pos hg]
      exact ⟨r, rfl⟩
    · rw [if_neg hg]
      have hne : m.length_fields ≠ [] := fun hh => hg (Or.inl hh)
      obtain ⟨f, r1, hch, hfmem⟩ := chooseE_ok r m.length_fields hne
      rw [hch]
      dsimp only
      rw [hall f hfmem]
      exact ⟨r1, rfl⟩
  · intro m buf msg r hall
    unfold invalid_enum
    by_cases hg : m.enum_fields = [] ∨ msg.field_spans = []
    · rw [if_pos hg]
      exact ⟨r, rfl⟩
    · rw [if_neg hg]
      have hne : m.enum_fields ≠ [] := fun hh => hg (Or.inl hh)
      obtain ⟨f, r1, hch, hfmem⟩ := chooseE_ok r m.enum_fields hne
      rw [hch]
      dsimp only
      rw [hall f hfmem]
      exact ⟨r1, rfl⟩

/-- A `GeneratedMessage` whose span map names only an unrelated field. -/
def otherSpanMsg : GeneratedMessage := ⟨[9], [], [("other", (0, 1))]⟩

/-- C6 witness: the degenerate-input guarantees evaluated on concrete
inputs (empty buffer; empty span map; span map missing the chosen
field). -/
theorem mutation_operators_degenerate_witness :
    (bit_flip [] [4] = .ok ([], [4])
      ∧ random_byte [] [4] = .ok ([], [4])
      ∧ truncate [] [4] = .ok ([], [4])
      ∧ (∃ bs r', extend [] [4] = .ok (bs, r') ∧ 1 ≤ bs.length ∧ bs.length ≤ 8))
    ∧ (corrupt_length c3Mutator [9] ⟨[9], [], []⟩ [0] = .ok ([9], [0])
      ∧ invalid_enum c3Mutator [9] ⟨[9], [], []⟩ [0] = .ok ([9], [0]))
    ∧ (∃ r', corrupt_length c3Mutator [9] otherSpanMsg [0] = .ok ([9], r'))
    ∧ (∃ r', invalid_enum c3Mutator [9] otherSpanMsg [0] = .ok ([9], r')) := by
  refine ⟨mutation_operators_degenerate.1 [4],
    mutation_operators_degenerate.2.1 c3Mutator [9] ⟨[9], [], []⟩ [0] rfl,
    mutation_operators_degenerate.2.2.1 c3Mutator [9] otherSpanMsg [0] (by decide),
    mutation_operators_degenerate.2.2.2 c3Mutator [9] otherSpanMsg [0] (by decide)⟩

/-- A schema with one plain `u8` field (no derived or enum fields). -/
def u8Schema : ProtocolSchema :=
  { name := "E",
    transport := { type := "tcp", host := "x", port := 1 },
    message := ⟨[{ name := "x", type := "u8" }]⟩ }

/-- The mutator built over `u8Schema`. -/
def u8Mutator : Mutator := mkMutator u8Schema

/-- An empty generated message. -/
def emptyMsg : GeneratedMessage := ⟨[], [], []⟩

/-- C7 counterexample: with `operations = 0`, `mutate` still applies one
operator (here extend), so the returned bytes differ from the original
message data. -/
theorem mutate_zero_ops_counterexample :
    mutate u8Mutator emptyMsg [3, 0, 7] 0 = .ok [7]
    ∧ emptyMsg.data ≠ [7] := by
  exact ⟨rfl, by decide⟩

/-- C7 (amended): `Mutator.mutate` applies exactly `max(1, operations)`
operator applications — each drawn uniformly from the six operators by
the loop in `mutateSteps` — to a copy of the serialized buffer; with
`operations = 0` one operation is still applied (it behaves exactly like
`operations = 1`), and zero loop steps leave the buffer untouched. -/
theorem mutate_operation_count :
    (∀ (m : Mutator) (msg : GeneratedMessage) (r : Rng),
      mutate m msg r 0 = mutate m msg r 1)
    ∧ (∀ (m : Mutator) (msg : GeneratedMessage) (r : Rng) (n : Nat), 1 ≤ n →
      mutate m msg r n =
        (match mutateSteps m msg n msg.data r with
         | .error e => .error e
         | .ok (buf, _) => .ok buf))
    ∧ (∀ (m : Mutator) (msg : GeneratedMessage) (buf : ByteString) (r : Rng),
      mutateSteps m msg 0 buf r = .ok (buf, r)) := by
  refine ⟨fun m msg r => rfl, ?_, fun m msg buf r => rfl⟩
  intro m msg r n h
  unfold mutate
  rw [Nat.max_eq_right h]

/-- C7 witness: the operation-count facts evaluated concretely. -/
theorem mutate_operation_count_witness :
    mutate u8Mutator emptyMsg [3, 0, 7] 0 = mutate u8Mutator emptyMsg [3, 0, 7] 1
    ∧ mutate u8Mutator emptyMsg [3, 0, 7, 3, 0, 9] 2 =
      (match mutateSteps u8Mutator emptyMsg 2 emptyMsg.data [3, 0, 7, 3, 0, 9] with
       | .error e => .error e
       | .ok (buf, _) => .ok buf)
    ∧ mutateSteps u8Mutator emptyMsg 0 [5] [4] = .ok ([5], [4]) :=
  ⟨mutate_operation_count.1 u8Mutator emptyMsg [3, 0, 7],
   mutate_operation_count.2.1 u8Mutator emptyMsg [3, 0, 7, 3, 0, 9] 2 (by decide),
   mutate_operation_count.2.2 u8Mutator emptyMsg [5] [4]⟩

/-- A transport table carrying an explicit port 0. -/
def rawPortZero : RawTransport := { port := some 0 }

/-- C8 counterexample: an explicitly supplied port of 0 is rejected with
the invalid-port error, not treated as "unset". -/
theorem port_zero_counterexample :
    parseTransport rawPortZero = .error "Invalid port number. Must be 1-65535" := rfl

/-- C8 (amended): transport parsing rejects every explicitly supplied
port outside `1..=65535`, including 0; only an absent (or `None`) port
is treated as "unset, to be supplied externally" and becomes 0. -/
theorem transport_port_validation :
    (∀ raw : RawTransport, raw.port = none →
      ∃ t, parseTransport raw = .ok t ∧ t.port = 0)
    ∧ (∀ (raw : RawTransport) (p : Int), raw.port = some p → 0 < p → p ≤ 65535 →
      ∃ t, parseTransport raw = .ok t ∧ t.port = p)
    ∧ (∀ (raw : RawTransport) (p : Int), raw.port = some p → ¬(0 < p ∧ p ≤ 65535) →
      parseTransport raw = .error "Invalid port number. Must be 1-65535") := by
  refine ⟨?_, ?_, ?_⟩
  · intro raw h
    unfold parseTransport
    rw [h]
    exact ⟨_, rfl, rfl⟩
  · intro raw p h h1 h2
    unfold parseTransport
    rw [h]
    dsimp only
    rw [if_pos ⟨h1, h2⟩]
    exact ⟨_, rfl, rfl⟩
  · intro raw p h hbad
    unfold parseTransport
    rw [h]
    dsimp only
    rw [if_neg hbad]

/-- C8 witness: the port rules evaluated at an absent port, port 80,
port 0 and port 70000. -/
theorem transport_port_validation_witness :
    (∃ t, parseTransport { port := none } = .ok t ∧ t.port = 0)
    ∧ (∃ t, parseTransport { port := some 80 } = .ok t ∧ t.port = 80)
    ∧ parseTransport rawPortZero = .error "Invalid port number. Must be 1-65535"
    ∧ parseTransport { port := some 70000 } = .error "Invalid port number. Must be 1-65535" :=
  ⟨transport_port_validation.1 { port := none } rfl,
   transport_port_validation.2.1 { port := some 80 } 80 rfl (by decide) (by decide),
   transport_port_validation.2.2 rawPortZero 0 rfl (by decide),
   transport_port_validation.2.2 { port := some 70000 } 70000 rfl (by decide)⟩

/-- C5: generation and mutation are pure functions of the schema, the
message and the random source — two runs with identically-seeded
(equal) random streams return byte-identical results. -/
theorem seeded_runs_identical (schema : ProtocolSchema) (r1 r2 : Rng)
    (h : r1 = r2) :
    generate_valid_message schema r1 = generate_valid_message schema r2
    ∧ (∀ (msg : GeneratedMessage) (n : Nat),
        mutate (mkMutator schema) msg r1 n = mutate (mkMutator schema) msg r2 n) := by
  subst h
  exact ⟨rfl, fun _ _ => rfl⟩

/-- C5 witness: two identically-seeded runs on the test schema, plus the
concrete byte-identical outputs they produce. -/
theorem seeded_runs_identical_witness :
    (generate_valid_message simpleSchema [0, 7] = generate_valid_message simpleSchema [0, 7]
      ∧ (∀ (msg : GeneratedMessage) (n : Nat),
          mutate (mkMutator simpleSchema) msg [0, 7] n
            = mutate (mkMutator simpleSchema) msg [0, 7] n))
    ∧ generate_valid_message simpleSchema [0, 7] = .ok (simpleMsg, []) :=
  ⟨seeded_runs_identical simpleSchema [0, 7] [0, 7] rfl, rfl⟩
